import Mathlib

/-!
# Verification of the crafting planner (`craft_planner.py`)

A shallow embedding of the planner's data model and search engine:

* `State` — the inventory representation (a Python `OrderedDict` keyed by item
  names; we model it as an ordered association list `List (Item × Int)`);
* `check` / `effect` / `isGoalO` — the compiled recipe predicates and
  transition functions (`make_checker`, `make_effector`, `make_goal_checker`);
* `craftGraph` — the successor generator `graph`;
* `heuristicM` — the provided `heuristic`;
* `searchRun` — the time-bounded best-first loop `search`, with the wall-clock
  budget modelled as a fuel parameter counting loop iterations, and Python
  exceptions modelled as explicit error outcomes.

Costs and priorities live in `WithTop ℤ`, covering both the integer recipe
times and the `float('inf')` values returned by the heuristic.
-/

/-- Item identifiers are strings. -/
abbrev Item := String

/-- Inventory state: `State(OrderedDict)` — an insertion-ordered mapping from
item to integer quantity, modelled as an ordered association list. -/
abbrev CState := List (Item × Int)

/-- Costs and queue priorities: integers together with `float('inf')`. -/
abbrev Cost := WithTop ℤ

/-- `d[k]` on a Python dict: the value at the first (unique) occurrence of the
key, or `none` for the `KeyError` case. -/
def alook {K V : Type} [DecidableEq K] : List (K × V) → K → Option V
  | [], _ => none
  | (k', v) :: rest, k => if k' = k then some v else alook rest k

/-- `d[k] = v` on a Python dict: replace the value at an existing key in
place, otherwise append the new binding at the end. -/
def aset {K V : Type} [DecidableEq K] : List (K × V) → K → V → List (K × V)
  | [], k, v => [(k, v)]
  | (k', v') :: rest, k, v =>
      if k' = k then (k, v) :: rest else (k', v') :: aset rest k v

/-- A raw rule: the optional `Requires`, `Consumes` and `Produces` sections of
a recipe dictionary. -/
structure Rule where
  requires : Option (List Item)
  consumes : Option (List (Item × Int))
  produces : Option (List (Item × Int))

/-- The `Requires` loop of `check`: for each requirement in order,
`state[requirement]` is looked up (`none` models the `KeyError` on a missing
key) and `not state[requirement]` fails the check exactly when the quantity
is `0` (Python integer truthiness). -/
def checkReq (s : CState) : List Item → Option Bool
  | [] => some true
  | r :: rs =>
    match alook s r with
    | none => none
    | some v => if v = 0 then some false else checkReq s rs

/-- The `Consumes` loop of `check`: for each consumed item in order, the check
fails when `state[consumed] >= amount` does not hold; a missing key is a
`KeyError` (`none`). -/
def checkCon (s : CState) : List (Item × Int) → Option Bool
  | [] => some true
  | (i, a) :: rest =>
    match alook s i with
    | none => none
    | some v => if a ≤ v then checkCon s rest else some false

/-- `check(state)` produced by `make_checker(rule)`: the `Requires` loop runs
first, then the `Consumes` loop; `none` models an uncaught `KeyError`. -/
def check (ru : Rule) (s : CState) : Option Bool :=
  match (match ru.requires with
         | none => some true
         | some rs => checkReq s rs) with
  | none => none
  | some false => some false
  | some true =>
    match ru.consumes with
    | none => some true
    | some cs => checkCon s cs

/-- The `Consumes` loop of `effect` acting on the copied state object:
`next_state[consumed] -= amount` reads then writes the key.  The boolean
records whether a `KeyError` occurred, in which case the partially updated
object is still returned (it models the mutated heap cell). -/
def consumeCell (s : CState) : List (Item × Int) → CState × Bool
  | [] => (s, true)
  | (i, a) :: rest =>
    match alook s i with
    | none => (s, false)
    | some v => consumeCell (aset s i (v - a)) rest

/-- The `Produces` loop of `effect`: `next_state[product] += amount`. -/
def produceCell (s : CState) : List (Item × Int) → CState × Bool
  | [] => (s, true)
  | (i, a) :: rest =>
    match alook s i with
    | none => (s, false)
    | some v => produceCell (aset s i (v + a)) rest

/-- `effect(state)` produced by `make_effector(rule)`: copy the state, run the
`Consumes` loop then the `Produces` loop on the copy; `none` models a
`KeyError` escaping `effect`. -/
def effect (ru : Rule) (s : CState) : Option CState :=
  let c := match ru.consumes with
           | none => (s, true)
           | some cs => consumeCell s cs
  match c with
  | (_, false) => none
  | (s1, true) =>
    match (match ru.produces with
           | none => (s1, true)
           | some ps => produceCell s1 ps) with
    | (_, false) => none
    | (s2, true) => some s2

/-- `is_goal(state)` produced by `make_goal_checker(goal)`: every goal item
must be present in quantity at least the goal amount; a missing key is a
`KeyError`. -/
def isGoalO (goal : List (Item × Int)) (s : CState) : Option Bool :=
  match goal with
  | [] => some true
  | (i, need) :: rest =>
    match alook s i with
    | none => none
    | some v => if v < need then some false else isGoalO rest s

/-- A successor triple `(action name, resulting state, cost)` yielded by
`graph`. -/
abbrev Act := String × CState × Cost

/-- A compiled recipe: `Recipe(name, check, effect, cost)` with
`cost = rule['Time']`. -/
structure CRecipe where
  name : String
  rule : Rule
  cost : Int

/-- `graph(state)`: iterate the compiled recipes in order and yield
`(r.name, r.effect(state), r.cost)` for each recipe whose `check` holds.
`none` models a `KeyError` raised by `check` or `effect` during iteration. -/
def craftGraph (rs : List CRecipe) (s : CState) : Option (List Act) :=
  match rs with
  | [] => some []
  | r :: rest =>
    match check r.rule s with
    | none => none
    | some false => craftGraph rest s
    | some true =>
      match effect r.rule s with
      | none => none
      | some s' =>
        match craftGraph rest s with
        | none => none
        | some l => some ((r.name, s', (r.cost : Cost)) :: l)

/-- One `or`-chain of `state[item] > threshold` tests, evaluated left to right
with Python short-circuiting; `none` models a `KeyError` on the first missing
item actually looked up. -/
def overChain (s : CState) : List (Item × Int) → Option Bool
  | [] => some false
  | (i, t) :: rest =>
    match alook s i with
    | none => none
    | some v => if t < v then some true else overChain s rest

/-- The tool items tested (against `> 1`) by the heuristic's first condition,
in evaluation order. -/
def heurTools : List (Item × Int) :=
  [("bench", 1), ("wooden_axe", 1), ("wooden_pickaxe", 1), ("stone_axe", 1),
   ("stone_pickaxe", 1), ("iron_axe", 1), ("iron_pickaxe", 1)]

/-- The material caps tested by the heuristic's last condition, in evaluation
order. -/
def heurMats : List (Item × Int) :=
  [("plank", 8), ("wood", 4), ("ore", 12), ("ingot", 12), ("cobble", 8),
   ("stick", 8), ("coal", 12)]

/-- The heuristic's final material-cap condition and its `return 0`. -/
def heurMatStage (s : CState) : Option Cost :=
  match overChain s heurMats with
  | none => none
  | some true => some ⊤
  | some false => some 0

/-- The heuristic's `Requires` loop over `current_recipe['Requires']`
(each tool tested against `> 1`), then the material stage. -/
def heurReqStage (ru : Rule) (s : CState) : Option Cost :=
  match (match ru.requires with
         | none => some false
         | some rs => overChain s (rs.map (fun i => (i, 1)))) with
  | none => none
  | some true => some ⊤
  | some false => heurMatStage s

/-- `heuristic(action_name, state)`: return `inf` when some tool count exceeds
1, when some required tool of `Crafting['Recipes'][action_name]` exceeds 1, or
when some material cap is exceeded; otherwise `0`.  `none` models a `KeyError`
(from a state lookup or from the recipe-table lookup). -/
def heuristicM (recipes : List (String × Rule)) (name : String) (s : CState) : Option Cost :=
  match overChain s heurTools with
  | none => none
  | some true => some ⊤
  | some false =>
    match alook recipes name with
    | none => none
    | some ru => heurReqStage ru s

/-- Python comparison of two `(item, quantity)` pairs (tuple order). -/
def pyPairLtB (p q : Item × Int) : Bool :=
  if p.1 = q.1 then decide (p.2 < q.2) else decide (p.1 < q.1)

/-- `State.__lt__`: Python tuple comparison of `tuple(self.items())`. -/
def pyStateLtB : CState → CState → Bool
  | [], [] => false
  | [], _ :: _ => true
  | _ :: _, [] => false
  | p :: xs, q :: ys => if p = q then pyStateLtB xs ys else pyPairLtB p q

/-- Strict comparison of heap entries `(priority, state)`, matching Python's
tuple comparison used by `heapq`. -/
def entLt (e f : Cost × CState) : Bool :=
  decide (e.1 < f.1) || (decide (e.1 = f.1) && pyStateLtB e.2 f.2)

/-- `heappop`: remove the least entry of the heap (by the total entry order);
`none` models the `IndexError` on an empty heap. -/
def popMin : List (Cost × CState) → Option ((Cost × CState) × List (Cost × CState))
  | [] => none
  | e :: es =>
    match popMin es with
    | none => some (e, [])
    | some (m, rest) => if entLt m e then some (m, e :: rest) else some (e, es)

instance : DecidableEq (Option (CState × Act)) := fun a b =>
  match a, b with
  | none, none => isTrue rfl
  | none, some _ => isFalse (by simp)
  | some _, none => isFalse (by simp)
  | some x, some y =>
    match decEq x y with
    | isTrue hxy => isTrue (by rw [hxy])
    | isFalse hxy => isFalse (by simpa using hxy)

/-- The search loop's owned structures: the priority queue and the
`costs`, `steps` and `passed_states` dictionaries. -/
structure SS where
  queue : List (Cost × CState)
  costs : List (CState × Cost)
  steps : List (CState × Nat)
  passed : List (CState × Option (CState × Act))
deriving DecidableEq

instance : Inhabited SS := ⟨⟨[], [], [], []⟩⟩

/-- Outcome of a search run: a reconstructed plan, `None` on time-budget
exhaustion, or an uncaught exception (`IndexError` from popping an empty
heap, a `KeyError` / generator failure, or a reconstruction failure). -/
inductive SOutcome where
  | plan : List (CState × Act) → SOutcome
  | timeout : SOutcome
  | emptyPop : SOutcome
  | err : SOutcome
  | stuck : SOutcome
deriving DecidableEq

/-- Result of one pass of the loop body. -/
inductive SRes where
  | next : SS → SRes
  | done : SOutcome → SRes
deriving DecidableEq

/-- One relaxation of the inner `for` loop: for a successor
`(new_name, new_state, new_cost)` of the popped `(current_cost, s)`, compute
`pathcost` and `pathlen`, and if `new_state` is unrecorded or improved, update
the three maps and push `(heuristic(new_name, new_state) + pathcost,
new_state)`.  `none` models a `KeyError` (missing `steps[current_state]`) or a
heuristic failure. -/
def relax (h : String → CState → Option Cost) (s : CState) (q : Cost)
    (ss : SS) (a : Act) : Option SS :=
  let (n, s2, w) := a
  let pathcost := q + w
  match alook ss.steps s with
  | none => none
  | some st =>
    let pathlen := st + 1
    let improve :=
      match alook ss.costs s2 with
      | none => true
      | some c => decide (pathcost < c)
    if improve then
      match h n s2 with
      | none => none
      | some hv =>
        some { queue := (hv + pathcost, s2) :: ss.queue,
               costs := aset ss.costs s2 pathcost,
               steps := aset ss.steps s2 pathlen,
               passed := aset ss.passed s2 (some (s, (n, s2, w))) }
    else some ss

/-- The inner `for` loop over the successor list. -/
def expand (h : String → CState → Option Cost) (s : CState) (q : Cost) :
    SS → List Act → Option SS
  | ss, [] => some ss
  | ss, a :: as' =>
    match relax h s q ss a with
    | none => none
    | some ss' => expand h s q ss' as'

/-- Path reconstruction: follow `passed_states` links from the goal state back
to the `None` sentinel, collecting `(state, action)` pairs in pop order (the
list is reversed by the caller).  The fuel bounds the `while` loop; `none`
models a `KeyError` or a non-terminating chain. -/
def reconstruct (m : List (CState × Option (CState × Act))) :
    CState → Nat → Option (List (CState × Act))
  | _, 0 => none
  | s, fuel + 1 =>
    match alook m s with
    | none => none
    | some none => some []
    | some (some (ps, pa)) =>
      match reconstruct m ps fuel with
      | none => none
      | some rest => some ((s, pa) :: rest)

/-- One pass of the `while` loop of `search`: pop; if the popped state is a
goal, report and reconstruct the plan; otherwise expand its successors. -/
def searchStep (g : CState → Option (List Act)) (isGoal : CState → Option Bool)
    (h : String → CState → Option Cost) (ss : SS) : SRes :=
  match popMin ss.queue with
  | none => .done .emptyPop
  | some ((q, s), rest) =>
    match isGoal s with
    | none => .done .err
    | some true =>
      match alook ss.costs s, alook ss.steps s with
      | some _, some _ =>
        match reconstruct ss.passed s (ss.passed.length + 1) with
        | none => .done .stuck
        | some path => .done (.plan path.reverse)
      | _, _ => .done .err
    | some false =>
      match g s with
      | none => .done .err
      | some succs =>
        match expand h s q { ss with queue := rest } succs with
        | none => .done .err
        | some ss' => .next ss'

/-- The initial owned structures: `queue = [(0, state)]`, `costs[state] = 0`,
`steps[state] = 0`, `passed_states[state] = None`. -/
def initSS (start : CState) : SS :=
  { queue := [((0 : Cost), start)],
    costs := [(start, (0 : Cost))],
    steps := [(start, 0)],
    passed := [(start, none)] }

/-- The `while time() - start_time < limit` loop: one fuel unit per pass;
exhausted fuel models the time budget elapsing (the `None` return). -/
def searchRun (g : CState → Option (List Act)) (isGoal : CState → Option Bool)
    (h : String → CState → Option Cost) : Nat → SS → SOutcome
  | 0, _ => .timeout
  | fuel + 1, ss =>
    match searchStep g isGoal h ss with
    | .done o => o
    | .next ss' => searchRun g isGoal h fuel ss'

/-- `search(graph, state, is_goal, limit, heuristic)`. -/
def search (g : CState → Option (List Act)) (isGoal : CState → Option Bool)
    (h : String → CState → Option Cost) (start : CState) (fuel : Nat) : SOutcome :=
  searchRun g isGoal h fuel (initSS start)

/-- Iterate `searchStep` a fixed number of passes, returning the loop state
(`none` once the loop has exited). -/
def stepsN (g : CState → Option (List Act)) (isGoal : CState → Option Bool)
    (h : String → CState → Option Cost) : Nat → SS → Option SS
  | 0, ss => some ss
  | fuel + 1, ss =>
    match searchStep g isGoal h ss with
    | .done _ => none
    | .next ss' => stepsN g isGoal h fuel ss'

/-- Modelled from the spec: the pop step it prescribes in place of the
source's behaviour — "re-validate the popped cost against the authoritative
best-known-cost map and discard (skip, without expanding) any entry that no
longer matches".  Identical to `searchStep` except that a popped entry whose
cost differs from `costs[state]` is dropped and the loop continues. -/
def searchStepSpec (g : CState → Option (List Act)) (isGoal : CState → Option Bool)
    (h : String → CState → Option Cost) (ss : SS) : SRes :=
  match popMin ss.queue with
  | none => .done .emptyPop
  | some ((q, s), rest) =>
    if alook ss.costs s ≠ some q then .next { ss with queue := rest }
    else
      match isGoal s with
      | none => .done .err
      | some true =>
        match alook ss.costs s, alook ss.steps s with
        | some _, some _ =>
          match reconstruct ss.passed s (ss.passed.length + 1) with
          | none => .done .stuck
          | some path => .done (.plan path.reverse)
        | _, _ => .done .err
      | some false =>
        match g s with
        | none => .done .err
        | some succs =>
          match expand h s q { ss with queue := rest } succs with
          | none => .done .err
          | some ss' => .next ss'

/-- `State.__key()`: `tuple(self.items())` — the ordered sequence of pairs
from which the hash and all comparisons are computed. -/
def stateKey (s : CState) : List (Item × Int) := s

/-- `==` between two states: `OrderedDict` equality, which compares the
ordered sequences of `(item, quantity)` pairs. -/
def stateEqb : CState → CState → Bool
  | [], [] => true
  | p :: xs, q :: ys => decide (p = q) && stateEqb xs ys
  | _, _ => false

/-- A heap of `State` objects; an address is an index into the heap. -/
abbrev Heap := List CState

/-- `effect` at the object level: read the object at `a`, allocate the copy,
and run the consume / produce loops as mutations of the copied cell.  Returns
the resulting heap and the address of the new object (`none` models a
`KeyError`, with the partially mutated copy left allocated). -/
def effectH (ru : Rule) (hp : Heap) (a : Nat) : Heap × Option Nat :=
  match hp[a]? with
  | none => (hp, none)
  | some s =>
    match (match ru.consumes with
           | none => (s, true)
           | some cs => consumeCell s cs) with
    | (s1, false) => (hp ++ [s1], none)
    | (s1, true) =>
      match (match ru.produces with
             | none => (s1, true)
             | some ps => produceCell s1 ps) with
      | (s2, false) => (hp ++ [s2], none)
      | (s2, true) => (hp ++ [s2], some hp.length)

/-- `graph` at the object level: iterate the recipes, calling `check` on the
object at `a` (a pure read) and `effect` on it, yielding triples whose middle
component is the address of the freshly allocated successor object. -/
def graphH (rcs : List CRecipe) (hp : Heap) (a : Nat) :
    Heap × Option (List (String × Nat × Int)) :=
  match rcs with
  | [] => (hp, some [])
  | r :: rest =>
    match hp[a]? with
    | none => (hp, none)
    | some s =>
      match check r.rule s with
      | none => (hp, none)
      | some false => graphH rest hp a
      | some true =>
        match effectH r.rule hp a with
        | (hp', none) => (hp', none)
        | (hp', some b) =>
          match graphH rest hp' a with
          | (hp'', none) => (hp'', none)
          | (hp'', some l) => (hp'', some ((r.name, b, r.cost) :: l))

/-- Resolve the addresses in a generator output to object values, for
comparing two runs up to allocation. -/
def resolveOpt (hp : Heap) (o : Option (List (String × Nat × Int))) :
    Option (List (String × Option CState × Int)) :=
  o.map (List.map fun t => (t.1, hp[t.2.1]?, t.2.2))

/-- A four-state successor function on which the loop pushes the state
`x = 1` twice with different costs (via the direct action `a` and the cheaper
path `b` then `c`). -/
def c1Graph : CState → Option (List Act) := fun s =>
  if s = [("x", 0)] then some [("a", [("x", 1)], 5), ("b", [("x", 2)], 1)]
  else if s = [("x", 2)] then some [("c", [("x", 1)], 1)]
  else if s = [("x", 1)] then some [("d", [("x", 3)], 7)]
  else some []

/-- An unreachable goal, so every pop expands. -/
def c1Goal : CState → Option Bool := isGoalO [("x", 9)]

/-- A 0-or-infinity heuristic of the program's kind: action `c` is pruned. -/
def c1H : String → CState → Option Cost := fun n _ => if n = "c" then some ⊤ else some 0

/-- The loop state after two passes: the queue holds the stale entry
`(5, x=1)` (the best-known cost of `x=1` is now 2) and the pruned entry
`(⊤, x=1)`. -/
def c1ss : SS := (stepsN c1Graph c1Goal c1H 2 (initSS [("x", 0)])).getD default

/-- The loop state after the third pass, which pops the stale entry. -/
def c1ssE : SS := (stepsN c1Graph c1Goal c1H 3 (initSS [("x", 0)])).getD default

/-- A state carrying every item the heuristic inspects. -/
def c9State : CState :=
  [("bench", 0), ("wooden_axe", 0), ("wooden_pickaxe", 0), ("stone_axe", 0),
   ("stone_pickaxe", 0), ("iron_axe", 0), ("iron_pickaxe", 0), ("plank", 0),
   ("wood", 0), ("ore", 0), ("ingot", 0), ("cobble", 0), ("stick", 0), ("coal", 0)]

/-- The predecessor chain of `s` in the map `m` reaches the `None`
sentinel: this is exactly termination of the reconstruction `while` loop. -/
inductive RN (m : List (CState × Option (CState × Act))) : CState → Prop where
  | base : ∀ s, alook m s = some none → RN m s
  | step : ∀ s ps a, alook m s = some (some (ps, a)) → RN m ps → RN m s

/-- `b` lies on the predecessor chain starting at `a` (inclusive). -/
inductive OnChain (m : List (CState × Option (CState × Act))) : CState → CState → Prop where
  | refl : ∀ a, OnChain m a a
  | step : ∀ a ps pa b, alook m a = some (some (ps, pa)) → OnChain m ps b → OnChain m a b

/-- The invariant maintained by every pass of the search loop, for
non-negative edge costs and a non-negative heuristic: the three maps share
their key set, queue entries point at recorded states and dominate their
best-known costs, the initial state is pinned at cost 0 with the `None`
sentinel, and every predecessor entry is a genuine graph edge whose chain
reaches the sentinel. -/
structure InvA (g : CState → Option (List Act)) (start : CState) (ss : SS) : Prop where
  qKeys : ∀ e ∈ ss.queue, ∃ c, alook ss.costs e.2 = some c ∧ c ≤ e.1
  qNonneg : ∀ e ∈ ss.queue, (0 : Cost) ≤ e.1
  cNonneg : ∀ s c, alook ss.costs s = some c → (0 : Cost) ≤ c
  keysCS : ∀ s, (alook ss.costs s).isSome ↔ (alook ss.steps s).isSome
  keysCP : ∀ s, (alook ss.costs s).isSome ↔ (alook ss.passed s).isSome
  startC : alook ss.costs start = some 0
  startP : alook ss.passed start = some none
  noneOnly : ∀ s, alook ss.passed s = some none → s = start
  chain : ∀ s ps n s2 w, alook ss.passed s = some (some (ps, (n, s2, w))) →
      s2 = s ∧ (∃ l, g ps = some l ∧ (n, s2, w) ∈ l) ∧
      (∃ cp cs', alook ss.costs ps = some cp ∧ alook ss.costs s = some cs' ∧ cp + w ≤ cs')
  reach : ∀ s, (alook ss.passed s).isSome → RN ss.passed s

/-- The loop states reachable from the initial configuration, together with
the history of popped `(priority, state)` entries (most recent first). -/
inductive Reach (g : CState → Option (List Act)) (isGoal : CState → Option Bool)
    (h : String → CState → Option Cost) (start : CState) :
    SS → List (Cost × CState) → Prop where
  | init : Reach g isGoal h start (initSS start) []
  | step : ∀ ss P e rest ss', Reach g isGoal h start ss P →
      popMin ss.queue = some (e, rest) →
      searchStep g isGoal h ss = .next ss' →
      Reach g isGoal h start ss' (e :: P)

/-- The total cost of a plan: the sum of its actions' costs. -/
def planCost (p : List (CState × Act)) : Cost :=
  (p.map (fun x => x.2.2.2)).sum

/-- `Reaches g start s c`: some plan over the successor generator `g` leads
from `start` to `s` with total cost `c`. -/
inductive Reaches (g : CState → Option (List Act)) (start : CState) : CState → Cost → Prop where
  | refl : Reaches g start start 0
  | step : ∀ s c l n s2 w, Reaches g start s c → g s = some l → (n, s2, w) ∈ l →
      Reaches g start s2 (c + w)

/-- The constant-zero heuristic. -/
def hzero : String → CState → Option Cost := fun _ _ => some 0

/-- Tier-B invariant, for the zero heuristic: every expanded (popped) entry
was a non-goal whose successors all have recorded costs at most the popped
cost plus the edge cost, and every recorded state has a queue entry or an
expanded entry whose priority is at most its recorded cost. -/
structure InvB (g : CState → Option (List Act)) (isGoal : CState → Option Bool)
    (ss : SS) (P : List (Cost × CState)) : Prop where
  wexp : ∀ e ∈ P, isGoal e.2 = some false ∧
    ∃ l, g e.2 = some l ∧ ∀ a ∈ l, ∃ c' ≤ e.1 + a.2.2, alook ss.costs a.2.1 = some c'
  zinv : ∀ s c, alook ss.costs s = some c →
    (∃ p, (p, s) ∈ ss.queue ∧ p ≤ c) ∨ (∃ p, (p, s) ∈ P ∧ p ≤ c)

/-- Scenario C: two recipes that produce the goal item directly, with costs
3 and 5 and no prerequisites. -/
def c2Recipes : List CRecipe :=
  [⟨"craft cheap", ⟨none, none, some [("g", 1)]⟩, 3⟩,
   ⟨"craft dear", ⟨none, none, some [("g", 1)]⟩, 5⟩]

/-- The plan returned by the search on Scenario C. -/
def c2Plan : List (CState × Act) :=
  match search (craftGraph c2Recipes) (isGoalO [("g", 1)]) hzero [("g", 0)] 3 with
  | .plan p => p
  | _ => []

/-- A domain with a zero-cost recipe (`Time` 0 is allowed by the format) and
a cost-1 recipe producing the goal item. -/
def c0Recipes : List CRecipe :=
  [⟨"free wood", ⟨none, none, some [("wood", 1)]⟩, 0⟩,
   ⟨"get gem", ⟨none, none, some [("gem", 1)]⟩, 1⟩]

/-- The states with `n` wood and no gem. -/
def wSt (n : Nat) : CState := [("gem", 0), ("wood", (n : Int))]

/-- The states with `n` wood and one gem. -/
def gSt (n : Nat) : CState := [("gem", 1), ("wood", (n : Int))]

/-- The starvation invariant on the zero-cost domain: up to permutation the
queue is one zero-priority entry — a gem-less wood state — plus entries of
priority 1; the later wood states are unrecorded; the zero entry's state has
a recorded step count. -/
def C0Inv (ss : SS) : Prop :=
  ∃ (nn : Nat) (q1 : List (Cost × CState)),
    ss.queue.Perm (((0 : Cost), wSt nn) :: q1) ∧
    (∀ e ∈ q1, e.1 = 1) ∧
    (∀ m : Nat, nn < m → alook ss.costs (wSt m) = none) ∧
    (∃ k, alook ss.steps (wSt nn) = some k)

/-! ## Theorems -/

@[simp] theorem alook_nil {K V : Type} [DecidableEq K] (k : K) :
    alook ([] : List (K × V)) k = none := rfl

@[simp] theorem alook_cons {K V : Type} [DecidableEq K] (k' : K) (v : V) (rest : List (K × V)) (k : K) :
    alook ((k', v) :: rest) k = if k' = k then some v else alook rest k := rfl

theorem alook_aset_self {K V : Type} [DecidableEq K] (m : List (K × V)) (k : K) (v : V) :
    alook (aset m k v) k = some v := by
  induction m with
  | nil => simp [aset, alook]
  | cons p rest ih =>
    obtain ⟨k', v'⟩ := p
    by_cases h : k' = k
    · simp [aset, h, alook]
    · simp [aset, h, alook, ih]

theorem alook_aset_ne {K V : Type} [DecidableEq K] (m : List (K × V)) (k k' : K) (v : V)
    (h : k' ≠ k) : alook (aset m k v) k' = alook m k' := by
  induction m with
  | nil => simp [aset, alook, Ne.symm h]
  | cons p rest ih =>
    obtain ⟨k₀, v₀⟩ := p
    by_cases h₀ : k₀ = k
    · subst h₀
      simp [aset, alook, Ne.symm h]
    · simp only [aset, if_neg h₀, alook_cons]
      by_cases h₁ : k₀ = k'
      · simp [h₁]
      · simp [h₁, ih]

theorem isSome_alook_aset {K V : Type} [DecidableEq K] (m : List (K × V)) (k x : K) (v : V) :
    (alook (aset m k v) x).isSome ↔ x = k ∨ (alook m x).isSome := by
  by_cases h : x = k
  · subst h; simp [alook_aset_self]
  · rw [alook_aset_ne m k x v h]
    simp [h]

theorem alook_mem {K V : Type} [DecidableEq K] {m : List (K × V)} {k : K} {v : V}
    (h : alook m k = some v) : (k, v) ∈ m := by
  induction m with
  | nil => simp [alook] at h
  | cons p rest ih =>
    obtain ⟨k', v'⟩ := p
    by_cases hk : k' = k
    · subst hk
      have hv : some v' = some v := by simpa [alook] using h
      cases Option.some.inj hv
      exact List.mem_cons_self _ _
    · simp only [alook_cons, if_neg hk] at h
      exact List.mem_cons_of_mem _ (ih h)

theorem mem_aset {K V : Type} [DecidableEq K] {m : List (K × V)} {k : K} {v : V} {p : K × V}
    (h : p ∈ aset m k v) : p = (k, v) ∨ p ∈ m := by
  induction m with
  | nil => simpa [aset] using h
  | cons q rest ih =>
    obtain ⟨k', v'⟩ := q
    by_cases hk : k' = k
    · subst hk
      simp only [aset, if_pos rfl] at h
      rcases List.mem_cons.mp h with h | h
      · exact Or.inl h
      · exact Or.inr (List.mem_cons_of_mem _ h)
    · simp only [aset, if_neg hk] at h
      rcases List.mem_cons.mp h with h | h
      · exact Or.inr (by simp [h])
      · rcases ih h with h' | h'
        · exact Or.inl h'
        · exact Or.inr (List.mem_cons_of_mem _ h')

/-- Values of an updated map: every binding is the new one or an old one. -/
theorem aset_forall_values {K V : Type} [DecidableEq K] {m : List (K × V)} {k : K} {v : V}
    {P : V → Prop} (hm : ∀ p ∈ m, P p.2) (hv : P v) :
    ∀ p ∈ aset m k v, P p.2 := by
  intro p hp
  rcases mem_aset hp with h | h
  · subst h; exact hv
  · exact hm p h

/-! ## Recipe model (`make_checker`, `make_effector`, `make_goal_checker`) -/

/-! ## Successor generator (`graph`) -/

/-! ## The provided heuristic -/

/-! ## The search engine (`search`)

The wall-clock budget is modelled by a fuel parameter counting loop
iterations; Python exceptions surface as explicit `SOutcome` error values. -/

/-! ## Properties of `check` -/

theorem checkReq_none_exists {s : CState} {rs : List Item}
    (h : checkReq s rs = none) : ∃ r ∈ rs, alook s r = none := by
  induction rs with
  | nil => simp [checkReq] at h
  | cons r rs ih =>
    unfold checkReq at h
    cases hl : alook s r with
    | none => exact ⟨r, by simp, hl⟩
    | some v =>
      rw [hl] at h
      by_cases hv : v = 0
      · simp [hv] at h
      · simp only [if_neg hv] at h
        obtain ⟨r', hr', hr'n⟩ := ih h
        exact ⟨r', by simp [hr'], hr'n⟩

theorem checkReq_true_iff (s : CState) (rs : List Item) :
    checkReq s rs = some true ↔ ∀ r ∈ rs, ∃ v, alook s r = some v ∧ v ≠ 0 := by
  induction rs with
  | nil => simp [checkReq]
  | cons r rs ih =>
    unfold checkReq
    cases hl : alook s r with
    | none =>
      simp only [false_iff]
      constructor
      · intro h; cases h
      · intro h
        obtain ⟨v, hv, _⟩ := h r (by simp)
        rw [hl] at hv
        cases hv
    | some v =>
      by_cases hv : v = 0
      · subst hv
        simp only [if_pos rfl]
        constructor
        · intro h; cases h
        · intro h
          obtain ⟨v', hv', hne⟩ := h r (by simp)
          rw [hl] at hv'
          cases hv'
          exact absurd rfl hne
      · simp only [if_neg hv, ih]
        constructor
        · intro h r' hr'
          rcases List.mem_cons.mp hr' with rfl | hr'
          · exact ⟨v, hl, hv⟩
          · exact h r' hr'
        · intro h r' hr'
          exact h r' (List.mem_cons_of_mem _ hr')

theorem checkCon_none_exists {s : CState} {cs : List (Item × Int)}
    (h : checkCon s cs = none) : ∃ p ∈ cs, alook s p.1 = none := by
  induction cs with
  | nil => simp [checkCon] at h
  | cons p cs ih =>
    obtain ⟨i, a⟩ := p
    unfold checkCon at h
    cases hl : alook s i with
    | none => exact ⟨(i, a), by simp, hl⟩
    | some v =>
      rw [hl] at h
      by_cases hv : a ≤ v
      · simp only [if_pos hv] at h
        obtain ⟨p', hp', hp'n⟩ := ih h
        exact ⟨p', by simp [hp'], hp'n⟩
      · simp [hv] at h

theorem checkCon_true_iff (s : CState) (cs : List (Item × Int)) :
    checkCon s cs = some true ↔ ∀ p ∈ cs, ∃ v, alook s p.1 = some v ∧ p.2 ≤ v := by
  induction cs with
  | nil => simp [checkCon]
  | cons p cs ih =>
    obtain ⟨i, a⟩ := p
    unfold checkCon
    cases hl : alook s i with
    | none =>
      simp only [false_iff]
      constructor
      · intro h; cases h
      · intro h
        obtain ⟨v, hv, _⟩ := h (i, a) (by simp)
        rw [hl] at hv
        cases hv
    | some v =>
      by_cases hv : a ≤ v
      · simp only [if_pos hv, ih]
        constructor
        · intro h p' hp'
          rcases List.mem_cons.mp hp' with rfl | hp'
          · exact ⟨v, hl, hv⟩
          · exact h p' hp'
        · intro h p' hp'
          exact h p' (List.mem_cons_of_mem _ hp')
      · simp only [if_neg hv]
        constructor
        · intro h; cases h
        · intro h
          obtain ⟨v', hv', hle⟩ := h (i, a) (by simp)
          rw [hl] at hv'
          cases hv'
          exact absurd hle hv

/-- Characterisation of a successful `check`: true exactly when every
required item is present with nonzero quantity and every consumed item is
present with at least the consumed amount. -/
theorem check_true_iff (ru : Rule) (s : CState) :
    check ru s = some true ↔
      (∀ r ∈ ru.requires.getD [], ∃ v, alook s r = some v ∧ v ≠ 0) ∧
      (∀ p ∈ ru.consumes.getD [], ∃ v, alook s p.1 = some v ∧ p.2 ≤ v) := by
  unfold check
  cases hr : ru.requires with
  | none =>
    simp only [hr, Option.getD_none, List.not_mem_nil, false_implies, implies_true, true_and]
    cases hc : ru.consumes with
    | none => simp
    | some cs => simpa using checkCon_true_iff s cs
  | some rs =>
    simp only [hr, Option.getD_some]
    cases hcr : checkReq s rs with
    | none =>
      refine iff_of_false (by simp) ?_
      rintro ⟨h1, -⟩
      obtain ⟨r, hrm, hrn⟩ := checkReq_none_exists hcr
      obtain ⟨v, hv, -⟩ := h1 r hrm
      rw [hrn] at hv
      cases hv
    | some b =>
      cases b with
      | false =>
        refine iff_of_false (by simp) ?_
        rintro ⟨h1, -⟩
        rw [(checkReq_true_iff s rs).mpr h1] at hcr
        cases hcr
      | true =>
        have h1 : ∀ r ∈ rs, ∃ v, alook s r = some v ∧ v ≠ 0 :=
          (checkReq_true_iff s rs).mp hcr
        cases hc : ru.consumes with
        | none =>
          refine iff_of_true rfl ⟨h1, ?_⟩
          simp
        | some cs =>
          simp only [Option.getD_some]
          rw [checkCon_true_iff s cs]
          exact ⟨fun h2 => ⟨h1, h2⟩, fun h2 => h2.2⟩

/-! ## Properties of `effect` -/

theorem consumeCell_nonneg :
    ∀ (cs : List (Item × Int)) (s : CState),
      (∀ p ∈ s, 0 ≤ p.2) →
      (∀ p ∈ cs, ∃ v, alook s p.1 = some v ∧ p.2 ≤ v) →
      (cs.map Prod.fst).Nodup →
      ∀ p ∈ (consumeCell s cs).1, 0 ≤ p.2 := by
  intro cs
  induction cs with
  | nil => intro s hs _ _; simpa [consumeCell] using hs
  | cons c rest ih =>
    intro s hs hav hnd
    obtain ⟨i, a⟩ := c
    obtain ⟨v, hv, hle⟩ := hav (i, a) (by simp)
    have hnd2 : (i :: rest.map Prod.fst).Nodup := by simpa using hnd
    have hnd' : (rest.map Prod.fst).Nodup := (List.nodup_cons.mp hnd2).2
    have hni : i ∉ rest.map Prod.fst := (List.nodup_cons.mp hnd2).1
    simp only [consumeCell, hv]
    apply ih (aset s i (v - a))
    · exact aset_forall_values hs (by omega)
    · intro p hp
      obtain ⟨v', hv', hle'⟩ := hav p (List.mem_cons_of_mem _ hp)
      refine ⟨v', ?_, hle'⟩
      rw [alook_aset_ne _ i p.1 _ ?_]
      · exact hv'
      · intro hpi
        exact hni (by simpa [hpi] using List.mem_map_of_mem Prod.fst hp)
    · exact hnd'

theorem produceCell_nonneg :
    ∀ (ps : List (Item × Int)) (s : CState),
      (∀ p ∈ s, 0 ≤ p.2) →
      (∀ p ∈ ps, 0 ≤ p.2) →
      ∀ p ∈ (produceCell s ps).1, 0 ≤ p.2 := by
  intro ps
  induction ps with
  | nil => intro s hs _; simpa [produceCell] using hs
  | cons c rest ih =>
    intro s hs hps
    obtain ⟨i, a⟩ := c
    cases hv : alook s i with
    | none => simpa [produceCell, hv] using hs
    | some v =>
      simp only [produceCell, hv]
      apply ih (aset s i (v + a))
      · refine aset_forall_values hs ?_
        have hv0 : 0 ≤ v := hs (i, v) (alook_mem hv)
        have ha0 : 0 ≤ a := hps (i, a) (by simp)
        omega
      · intro p hp
        exact hps p (List.mem_cons_of_mem _ hp)

/-! ## State identity (`__key`, `__hash__`, `__eq__`) -/

theorem stateEqb_iff_key (s t : CState) :
    stateEqb s t = true ↔ stateKey s = stateKey t := by
  induction s generalizing t with
  | nil =>
    cases t with
    | nil => simp [stateEqb, stateKey]
    | cons q ys => simp [stateEqb, stateKey]
  | cons p xs ih =>
    cases t with
    | nil => simp [stateEqb, stateKey]
    | cons q ys =>
      simp only [stateEqb, Bool.and_eq_true, decide_eq_true_eq, ih, stateKey]
      constructor
      · rintro ⟨rfl, rfl⟩
        rfl
      · intro h
        injection h with h1 h2
        exact ⟨h1, h2⟩

theorem alook_eq_none_of_not_mem {K V : Type} [DecidableEq K] (m : List (K × V)) (k : K)
    (h : k ∉ m.map Prod.fst) : alook m k = none := by
  induction m with
  | nil => rfl
  | cons p rest ih =>
    obtain ⟨k', v'⟩ := p
    simp only [List.map_cons, List.mem_cons] at h
    push_neg at h
    rw [alook_cons, if_neg fun hh => h.1 hh.symm]
    exact ih h.2

/-! ## The heuristic returns only 0 or infinity -/

theorem overChain_isSome (s : CState) (l : List (Item × Int))
    (h : ∀ p ∈ l, (alook s p.1).isSome) : ∃ b, overChain s l = some b := by
  induction l with
  | nil => exact ⟨false, rfl⟩
  | cons p rest ih =>
    obtain ⟨i, t⟩ := p
    have hp := h (i, t) (by simp)
    cases hl : alook s i with
    | none => rw [hl] at hp; cases hp
    | some v =>
      unfold overChain
      rw [hl]
      by_cases hv : t < v
      · exact ⟨true, by simp [hv]⟩
      · simpa [hv] using ih (fun p hp' => h p (List.mem_cons_of_mem _ hp'))

/-! ## Claim C3 -/

/-- C3, counterexample.  Looking up an item absent from the state's mapping
does not yield 0: it raises (`none`, a `KeyError`); and `check` on a state
missing its required item does not return false: it raises as well. -/
theorem c3_counterexample :
    alook ([] : CState) "wood" ≠ some 0 ∧ alook ([] : CState) "wood" = none ∧
    check ⟨some ["wood"], none, none⟩ [] ≠ some false ∧
    check ⟨some ["wood"], none, none⟩ [] = none := by
  decide

/-- C3, amended: looking up an item absent from the state's mapping yields an
error (`KeyError`), never 0; consequently `check` can only return true when
every item in the requirement set and the consumption map is present in the
state — a missing required or consumed item makes `check` raise or fail
earlier, never succeed. -/
theorem c3_absent_item_lookup_is_error (s : CState) (i : Item) (ru : Rule) :
    (i ∉ s.map Prod.fst → alook s i = none) ∧
    (check ru s = some true →
      ∀ rs, ru.requires = some rs → ∀ r ∈ rs, (alook s r).isSome) ∧
    (check ru s = some true →
      ∀ cs, ru.consumes = some cs → ∀ p ∈ cs, (alook s p.1).isSome) := by
  refine ⟨alook_eq_none_of_not_mem s i, ?_, ?_⟩
  · intro hchk rs hrs r hr
    obtain ⟨v, hv, -⟩ := ((check_true_iff ru s).mp hchk).1 r (by simp [hrs, hr])
    simp [hv]
  · intro hchk cs hcs p hp
    obtain ⟨v, hv, -⟩ := ((check_true_iff ru s).mp hchk).2 p (by simp [hcs, hp])
    simp [hv]

/-- C3, witness for `c3_absent_item_lookup_is_error` at a concrete input. -/
theorem c3_witness :
    alook [("plank", (1 : Int))] "wood" = none ∧
    (alook [("plank", (1 : Int))] "plank").isSome :=
  ⟨(c3_absent_item_lookup_is_error [("plank", 1)] "wood"
      ⟨some ["plank"], none, none⟩).1 (by decide),
   (c3_absent_item_lookup_is_error [("plank", 1)] "plank"
      ⟨some ["plank"], none, none⟩).2.1 (by decide) ["plank"] rfl "plank" (by decide)⟩

/-! ## Claim C5 -/

/-- C5, counterexample.  Two states holding exactly the same set of
`(item, quantity)` pairs inserted in different orders are not equal (and
their hash keys `tuple(items())` differ). -/
theorem c5_counterexample :
    [("a", (1 : Int)), ("b", 2)].Perm [("b", (2 : Int)), ("a", 1)] ∧
    stateEqb [("a", 1), ("b", 2)] [("b", 2), ("a", 1)] = false ∧
    stateKey [("a", 1), ("b", 2)] ≠ stateKey [("b", 2), ("a", 1)] := by
  refine ⟨?_, by decide, by decide⟩
  exact List.Perm.swap ("b", 2) ("a", 1) []

/-- C5, amended: state equality (and therefore hash equality, the hash being
computed from `tuple(self.items())`) is determined by the ordered sequence of
`(item, quantity)` pairs, not by the set of pairs: two states are equal
exactly when their key sequences — insertion order included — coincide. -/
theorem c5_state_identity_is_order_sensitive (s t : CState) :
    stateEqb s t = true ↔ stateKey s = stateKey t :=
  stateEqb_iff_key s t

/-! ## Claim C6 -/

/-- C6, counterexample.  `not state[requirement]` tests truthiness, not
`> 0`: with a required item at quantity `-1` the compiled `check` succeeds
although the claimed characterisation (`quantity > 0`) is violated. -/
theorem c6_counterexample :
    check ⟨some ["t"], none, none⟩ [("t", -1)] = some true ∧
    alook [("t", (-1 : Int))] "t" = some (-1) ∧ ¬ (0 < (-1 : Int)) := by
  decide

/-- C6, amended: `check(state)` returns true iff every item in the
requirement set is present with nonzero quantity (Python truthiness, not
`> 0`) and every item in the consumption map is present with quantity at
least the consumed amount; in particular it is false (or an error) whenever
some consumed item's quantity is below the required amount. -/
theorem c6_check_true_characterisation (ru : Rule) (s : CState) :
    check ru s = some true ↔
      (∀ r ∈ ru.requires.getD [], ∃ v, alook s r = some v ∧ v ≠ 0) ∧
      (∀ p ∈ ru.consumes.getD [], ∃ v, alook s p.1 = some v ∧ p.2 ≤ v) :=
  check_true_iff ru s

/-! ## Claim C7 -/

/-- C7: for a recipe with non-negative consumption and production amounts
(its consumption map having distinct keys, as a Python dict does) and a state
with non-negative quantities satisfying `check`, every quantity of the state
returned by `effect` is non-negative. -/
theorem c7_effect_preserves_nonneg (ru : Rule) (s s' : CState)
    (hnd : ((ru.consumes.getD []).map Prod.fst).Nodup)
    (hcn : ∀ p ∈ ru.consumes.getD [], 0 ≤ p.2)
    (hpn : ∀ p ∈ ru.produces.getD [], 0 ≤ p.2)
    (hs : ∀ p ∈ s, 0 ≤ p.2)
    (hchk : check ru s = some true)
    (heff : effect ru s = some s') :
    ∀ p ∈ s', 0 ≤ p.2 := by
  have hcons := ((check_true_iff ru s).mp hchk).2
  unfold effect at heff
  have hs1 : ∀ p ∈ (match ru.consumes with
                    | none => (s, true)
                    | some cs => consumeCell s cs).1, 0 ≤ p.2 := by
    cases hc : ru.consumes with
    | none => simpa using hs
    | some cs =>
      simp only
      exact consumeCell_nonneg cs s hs (by simpa [hc] using hcons) (by simpa [hc] using hnd)
  revert heff
  cases hcc : (match ru.consumes with
               | none => (s, true)
               | some cs => consumeCell s cs) with
  | mk s1 ok =>
    rw [hcc] at hs1
    cases ok with
    | false => intro heff; cases heff
    | true =>
      simp only
      cases hp : ru.produces with
      | none =>
        intro heff
        cases heff
        simpa using hs1
      | some ps =>
        simp only
        have hps : ∀ p ∈ (produceCell s1 ps).1, 0 ≤ p.2 :=
          produceCell_nonneg ps s1 (by simpa using hs1) (by simpa [hp] using hpn)
        cases hpc : produceCell s1 ps with
        | mk s2 ok2 =>
          rw [hpc] at hps
          cases ok2 with
          | false => intro heff; cases heff
          | true =>
            intro heff
            cases heff
            simpa using hps

/-- C7, witness: the theorem applied to the plank recipe at a concrete state,
instantiated at the produced binding. -/
theorem c7_witness : (0 : Int) ≤ (("plank", (4 : Int)) : Item × Int).2 :=
  c7_effect_preserves_nonneg ⟨none, some [("wood", 1)], some [("plank", 4)]⟩
    [("wood", 1), ("plank", 0)] [("wood", 0), ("plank", 4)]
    (by decide) (by decide) (by decide) (by decide) (by decide) (by decide)
    ("plank", 4) (by decide)

/-! ## Claim C9 -/

/-- C9: on a state with entries for the items the heuristic inspects (and for
the required tools of the named recipe), the provided heuristic returns
exactly `0` or `inf` — never a negative value and never a finite positive
estimate — so adding it to the path cost either keeps the priority equal to
the path cost or pushes the entry past every finite priority. -/
theorem c9_heuristic_returns_zero_or_inf (recipes : List (String × Rule))
    (name : String) (s : CState) (ru : Rule) (rs : List Item)
    (hrec : alook recipes name = some ru)
    (hreq : ru.requires = some rs)
    (htools : ∀ p ∈ heurTools, (alook s p.1).isSome)
    (hmats : ∀ p ∈ heurMats, (alook s p.1).isSome)
    (hrtools : ∀ r ∈ rs, (alook s r).isSome) :
    heuristicM recipes name s = some 0 ∨ heuristicM recipes name s = some ⊤ := by
  obtain ⟨b1, hb1⟩ := overChain_isSome s heurTools htools
  unfold heuristicM
  simp only [hb1, hrec]
  cases b1 with
  | true => exact Or.inr rfl
  | false =>
    obtain ⟨b2, hb2⟩ := overChain_isSome s (rs.map fun i => (i, 1)) (by
      intro p hp
      obtain ⟨r, hr, rfl⟩ := List.mem_map.mp hp
      exact hrtools r hr)
    unfold heurReqStage
    simp only [hreq, hb2]
    cases b2 with
    | true => exact Or.inr rfl
    | false =>
      obtain ⟨b3, hb3⟩ := overChain_isSome s heurMats hmats
      unfold heurMatStage
      simp only [hb3]
      cases b3 with
      | true => exact Or.inr rfl
      | false => exact Or.inl rfl

/-! ## Claim C8: purity of `effect` and `graph`, at the object level

To state that `effect` and `graph` do not mutate their argument we model the
Python object store explicitly: a heap of `State` objects addressed by index.
`state.copy()` allocates a fresh cell, and every write of `effect`
(`next_state[...] -= / +=`) targets that fresh cell only. -/

theorem effectH_preserves (ru : Rule) (hp : Heap) (a j : Nat) (hj : j < hp.length) :
    (effectH ru hp a).1[j]? = hp[j]? := by
  unfold effectH
  cases hp[a]? with
  | none => rfl
  | some s =>
    simp only
    cases hcc : (match ru.consumes with
                 | none => (s, true)
                 | some cs => consumeCell s cs) with
    | mk s1 ok =>
      cases ok with
      | false => simp [List.getElem?_append, hj]
      | true =>
        simp only
        cases hpc : (match ru.produces with
                     | none => (s1, true)
                     | some ps => produceCell s1 ps) with
        | mk s2 ok2 =>
          cases ok2 with
          | false => simp [List.getElem?_append, hj]
          | true => simp [List.getElem?_append, hj]

theorem effectH_length (ru : Rule) (hp : Heap) (a : Nat) :
    hp.length ≤ (effectH ru hp a).1.length := by
  unfold effectH
  cases hp[a]? with
  | none => exact le_refl _
  | some s =>
    simp only
    cases (match ru.consumes with
           | none => (s, true)
           | some cs => consumeCell s cs) with
    | mk s1 ok =>
      cases ok with
      | false => simp
      | true =>
        simp only
        cases (match ru.produces with
               | none => (s1, true)
               | some ps => produceCell s1 ps) with
        | mk s2 ok2 =>
          cases ok2 with
          | false => simp
          | true => simp

theorem graphH_preserves (rcs : List CRecipe) :
    ∀ (hp : Heap) (a j : Nat), j < hp.length → (graphH rcs hp a).1[j]? = hp[j]? := by
  induction rcs with
  | nil => intro hp a j _; rfl
  | cons r rest ih =>
    intro hp a j hj
    unfold graphH
    cases hp[a]? with
    | none => rfl
    | some s =>
      simp only
      cases check r.rule s with
      | none => rfl
      | some b =>
        cases b with
        | false => exact ih hp a j hj
        | true =>
          simp only
          cases hE : effectH r.rule hp a with
          | mk hp' ob =>
            have hpres : hp'[j]? = hp[j]? := by
              have := effectH_preserves r.rule hp a j hj
              rw [hE] at this
              exact this
            have hlen : hp.length ≤ hp'.length := by
              have := effectH_length r.rule hp a
              rw [hE] at this
              exact this
            cases ob with
            | none => exact hpres
            | some b' =>
              simp only
              cases hG : graphH rest hp' a with
              | mk hp'' o =>
                have hpres2 : hp''[j]? = hp'[j]? := by
                  have := ih hp' a j (lt_of_lt_of_le hj hlen)
                  rw [hG] at this
                  exact this
                cases o with
                | none => simp only; rw [hpres2, hpres]
                | some l => simp only; rw [hpres2, hpres]

theorem graphH_length (rcs : List CRecipe) :
    ∀ (hp : Heap) (a : Nat), hp.length ≤ (graphH rcs hp a).1.length := by
  induction rcs with
  | nil => intro hp a; exact le_refl _
  | cons r rest ih =>
    intro hp a
    unfold graphH
    cases hp[a]? with
    | none => exact le_refl _
    | some s =>
      simp only
      cases check r.rule s with
      | none => exact le_refl _
      | some b =>
        cases b with
        | false => exact ih hp a
        | true =>
          simp only
          cases hE : effectH r.rule hp a with
          | mk hp' ob =>
            have hlen : hp.length ≤ hp'.length := by
              have := effectH_length r.rule hp a
              rw [hE] at this
              exact this
            cases ob with
            | none => exact hlen
            | some b' =>
              simp only
              cases hG : graphH rest hp' a with
              | mk hp'' o =>
                have hlen2 : hp'.length ≤ hp''.length := by
                  have := ih hp' a
                  rw [hG] at this
                  exact this
                cases o with
                | none => exact le_trans hlen hlen2
                | some l => exact le_trans hlen hlen2

theorem effectH_of_effect_some (ru : Rule) (hp : Heap) (a : Nat) (s s' : CState)
    (h : hp[a]? = some s) (heff : effect ru s = some s') :
    effectH ru hp a = (hp ++ [s'], some hp.length) := by
  unfold effectH
  rw [h]
  unfold effect at heff
  cases hcc : (match ru.consumes with
               | none => (s, true)
               | some cs => consumeCell s cs) with
  | mk s1 ok =>
    simp only [hcc] at heff ⊢
    cases ok with
    | false => cases heff
    | true =>
      cases hpc : (match ru.produces with
                   | none => (s1, true)
                   | some ps => produceCell s1 ps) with
      | mk s2 ok2 =>
        simp only [hpc] at heff ⊢
        cases ok2 with
        | false => cases heff
        | true =>
          cases heff
          rfl

theorem effectH_of_effect_none (ru : Rule) (hp : Heap) (a : Nat) (s : CState)
    (h : hp[a]? = some s) (heff : effect ru s = none) :
    (effectH ru hp a).2 = none := by
  unfold effectH
  rw [h]
  unfold effect at heff
  cases hcc : (match ru.consumes with
               | none => (s, true)
               | some cs => consumeCell s cs) with
  | mk s1 ok =>
    simp only [hcc] at heff ⊢
    cases ok with
    | false => rfl
    | true =>
      cases hpc : (match ru.produces with
                   | none => (s1, true)
                   | some ps => produceCell s1 ps) with
      | mk s2 ok2 =>
        simp only [hpc] at heff ⊢
        cases ok2 with
        | false => rfl
        | true => cases heff

theorem lt_length_of_getElem?_eq_some {α : Type} {l : List α} {i : Nat} {x : α}
    (h : l[i]? = some x) : i < l.length := by
  by_contra hlt
  rw [List.getElem?_eq_none (le_of_not_lt hlt)] at h
  cases h

/-- Two generator runs on the same state value produce outputs that resolve
to the same value sequences, whatever the surrounding heaps. -/
theorem graphH_det (rcs : List CRecipe) :
    ∀ (hp hq : Heap) (a b : Nat) (s : CState),
      hp[a]? = some s → hq[b]? = some s →
      resolveOpt (graphH rcs hp a).1 (graphH rcs hp a).2 =
        resolveOpt (graphH rcs hq b).1 (graphH rcs hq b).2 := by
  induction rcs with
  | nil => intro hp hq a b s _ _; rfl
  | cons r rest ih =>
    intro hp hq a b s ha hb
    unfold graphH
    rw [ha, hb]
    simp only
    cases check r.rule s with
    | none => rfl
    | some bb =>
      cases bb with
      | false => exact ih hp hq a b s ha hb
      | true =>
        simp only
        cases heff : effect r.rule s with
        | none =>
          have h1 := effectH_of_effect_none r.rule hp a s ha heff
          have h2 := effectH_of_effect_none r.rule hq b s hb heff
          cases hE1 : effectH r.rule hp a with
          | mk hp' ob1 =>
            cases hE2 : effectH r.rule hq b with
            | mk hq' ob2 =>
              rw [hE1] at h1
              rw [hE2] at h2
              cases h1
              cases h2
              rfl
        | some s' =>
          rw [effectH_of_effect_some r.rule hp a s s' ha heff,
              effectH_of_effect_some r.rule hq b s s' hb heff]
          simp only
          have ha' : (hp ++ [s'])[a]? = some s := by
            simp [List.getElem?_append, lt_length_of_getElem?_eq_some ha, ha]
          have hb' : (hq ++ [s'])[b]? = some s := by
            simp [List.getElem?_append, lt_length_of_getElem?_eq_some hb, hb]
          have hrec := ih (hp ++ [s']) (hq ++ [s']) a b s ha' hb'
          cases hG1 : graphH rest (hp ++ [s']) a with
          | mk hp'' o1 =>
            cases hG2 : graphH rest (hq ++ [s']) b with
            | mk hq'' o2 =>
              rw [hG1, hG2] at hrec
              have hv1 : hp''[hp.length]? = some s' := by
                have hlen : hp.length < (hp ++ [s']).length := by simp
                have := graphH_preserves rest (hp ++ [s']) a hp.length hlen
                rw [hG1] at this
                rw [this, List.getElem?_concat_length]
              have hv2 : hq''[hq.length]? = some s' := by
                have hlen : hq.length < (hq ++ [s']).length := by simp
                have := graphH_preserves rest (hq ++ [s']) b hq.length hlen
                rw [hG2] at this
                rw [this, List.getElem?_concat_length]
              cases o1 with
              | none =>
                cases o2 with
                | none => rfl
                | some l2 =>
                  exfalso
                  simp [resolveOpt] at hrec
              | some l1 =>
                cases o2 with
                | none =>
                  exfalso
                  simp [resolveOpt] at hrec
                | some l2 =>
                  simp only [resolveOpt, Option.map] at hrec
                  simp only [resolveOpt, Option.map, List.map_cons, hv1, hv2]
                  rw [Option.some.injEq] at hrec
                  rw [hrec]

/-- C8: `effect` and the successor generator leave the input state object
unchanged (the object at the argument's address has the same value after the
call), and running the generator twice on the same state yields equivalent
sequences of (action name, resulting state, cost) triples. -/
theorem c8_effect_and_graph_are_pure (ru : Rule) (rcs : List CRecipe) (hp : Heap) (a : Nat)
    (ha : a < hp.length) :
    (effectH ru hp a).1[a]? = hp[a]? ∧
    (graphH rcs hp a).1[a]? = hp[a]? ∧
    resolveOpt (graphH rcs (graphH rcs hp a).1 a).1 (graphH rcs (graphH rcs hp a).1 a).2 =
      resolveOpt (graphH rcs hp a).1 (graphH rcs hp a).2 := by
  refine ⟨effectH_preserves ru hp a a ha, graphH_preserves rcs hp a a ha, ?_⟩
  obtain ⟨s, hs⟩ : ∃ s, hp[a]? = some s := by
    have hsome : hp[a]?.isSome := by simp [List.getElem?_eq_getElem ha]
    exact Option.isSome_iff_exists.mp hsome
  have hs2 : (graphH rcs hp a).1[a]? = some s := by
    rw [graphH_preserves rcs hp a a ha, hs]
  exact graphH_det rcs (graphH rcs hp a).1 hp a a s hs2 hs

/-- C8, witness: the purity theorem applied to a one-recipe heap. -/
theorem c8_witness :
    (effectH ⟨none, some [("wood", 1)], some [("plank", 4)]⟩
        [[("wood", (1 : Int)), ("plank", 0)]] 0).1[0]? =
      [[("wood", (1 : Int)), ("plank", 0)]][0]? ∧
    (graphH [⟨"make_plank", ⟨none, some [("wood", 1)], some [("plank", 4)]⟩, 1⟩]
        [[("wood", (1 : Int)), ("plank", 0)]] 0).1[0]? =
      [[("wood", (1 : Int)), ("plank", 0)]][0]? ∧
    resolveOpt
        (graphH [⟨"make_plank", ⟨none, some [("wood", 1)], some [("plank", 4)]⟩, 1⟩]
          (graphH [⟨"make_plank", ⟨none, some [("wood", 1)], some [("plank", 4)]⟩, 1⟩]
            [[("wood", (1 : Int)), ("plank", 0)]] 0).1 0).1
        (graphH [⟨"make_plank", ⟨none, some [("wood", 1)], some [("plank", 4)]⟩, 1⟩]
          (graphH [⟨"make_plank", ⟨none, some [("wood", 1)], some [("plank", 4)]⟩, 1⟩]
            [[("wood", (1 : Int)), ("plank", 0)]] 0).1 0).2 =
      resolveOpt
        (graphH [⟨"make_plank", ⟨none, some [("wood", 1)], some [("plank", 4)]⟩, 1⟩]
          [[("wood", (1 : Int)), ("plank", 0)]] 0).1
        (graphH [⟨"make_plank", ⟨none, some [("wood", 1)], some [("plank", 4)]⟩, 1⟩]
          [[("wood", (1 : Int)), ("plank", 0)]] 0).2 :=
  c8_effect_and_graph_are_pure ⟨none, some [("wood", 1)], some [("plank", 4)]⟩
    [⟨"make_plank", ⟨none, some [("wood", 1)], some [("plank", 4)]⟩, 1⟩]
    [[("wood", (1 : Int)), ("plank", 0)]] 0 (by decide)

/-! ## Claim C4: the failure path crashes on an emptied queue -/

/-- C4: on a domain whose goal item no recipe produces (here: no recipes at
all), the search does not run until the time budget is exhausted — once the
frontier empties, the next loop pass pops from an empty heap and raises
(`IndexError`, the `emptyPop` outcome), which is not the `None` failure
return the claim requires.  Budget of two loop passes; the first pass
consumes the only queue entry. -/
theorem c4_empty_queue_raises :
    search (craftGraph []) (isGoalO [("gem", 1)]) (fun _ _ => some 0) [("gem", 0)] 2 =
      SOutcome.emptyPop ∧
    SOutcome.emptyPop ≠ SOutcome.timeout := by
  constructor
  · rfl
  · intro h
    cases h

/-! ## Elementary properties of `relax` and `expand` -/

theorem relax_steps_isSome (h : String → CState → Option Cost) (s : CState) (q : Cost)
    (ss ss' : SS) (a : Act) (x : CState)
    (hr : relax h s q ss a = some ss') (hx : (alook ss.steps x).isSome) :
    (alook ss'.steps x).isSome := by
  obtain ⟨n, s2, w⟩ := a
  unfold relax at hr
  simp only at hr
  cases hst : alook ss.steps s with
  | none => rw [hst] at hr; cases hr
  | some st =>
    rw [hst] at hr
    simp only at hr
    by_cases himp : (match alook ss.costs s2 with
                     | none => true
                     | some c => decide (q + w < c)) = true
    · rw [if_pos himp] at hr
      cases hh : h n s2 with
      | none => rw [hh] at hr; cases hr
      | some hv =>
        rw [hh] at hr
        cases hr
        simp only
        rw [isSome_alook_aset]
        exact Or.inr hx
    · rw [if_neg himp] at hr
      cases hr
      exact hx

theorem relax_costs_isSome (h : String → CState → Option Cost) (s : CState) (q : Cost)
    (ss ss' : SS) (a : Act) (x : CState)
    (hr : relax h s q ss a = some ss') (hx : (alook ss.costs x).isSome) :
    (alook ss'.costs x).isSome := by
  obtain ⟨n, s2, w⟩ := a
  unfold relax at hr
  simp only at hr
  cases hst : alook ss.steps s with
  | none => rw [hst] at hr; cases hr
  | some st =>
    rw [hst] at hr
    simp only at hr
    by_cases himp : (match alook ss.costs s2 with
                     | none => true
                     | some c => decide (q + w < c)) = true
    · rw [if_pos himp] at hr
      cases hh : h n s2 with
      | none => rw [hh] at hr; cases hr
      | some hv =>
        rw [hh] at hr
        cases hr
        simp only
        rw [isSome_alook_aset]
        exact Or.inr hx
    · rw [if_neg himp] at hr
      cases hr
      exact hx

theorem relax_some (h : String → CState → Option Cost) (s : CState) (q : Cost)
    (ss : SS) (a : Act)
    (hst : (alook ss.steps s).isSome) (hh : (h a.1 a.2.1).isSome) :
    ∃ ss', relax h s q ss a = some ss' := by
  obtain ⟨n, s2, w⟩ := a
  unfold relax
  simp only
  obtain ⟨st, hst'⟩ := Option.isSome_iff_exists.mp hst
  rw [hst']
  simp only
  by_cases himp : (match alook ss.costs s2 with
                   | none => true
                   | some c => decide (q + w < c)) = true
  · rw [if_pos himp]
    obtain ⟨hv, hh'⟩ := Option.isSome_iff_exists.mp hh
    rw [hh']
    exact ⟨_, rfl⟩
  · rw [if_neg himp]
    exact ⟨ss, rfl⟩

theorem relax_records (h : String → CState → Option Cost) (s : CState) (q : Cost)
    (ss ss' : SS) (n : String) (s2 : CState) (w : Cost)
    (hr : relax h s q ss (n, s2, w) = some ss') :
    (alook ss'.costs s2).isSome := by
  unfold relax at hr
  simp only at hr
  cases hst : alook ss.steps s with
  | none => rw [hst] at hr; cases hr
  | some st =>
    rw [hst] at hr
    simp only at hr
    cases hc : alook ss.costs s2 with
    | none =>
      rw [hc] at hr
      simp only [if_pos rfl] at hr
      cases hh : h n s2 with
      | none => rw [hh] at hr; cases hr
      | some hv =>
        rw [hh] at hr
        cases hr
        simp only
        rw [alook_aset_self]
        rfl
    | some c =>
      rw [hc] at hr
      by_cases himp : (q + w < c)
      · rw [if_pos (decide_eq_true himp)] at hr
        cases hh : h n s2 with
        | none => rw [hh] at hr; cases hr
        | some hv =>
          rw [hh] at hr
          cases hr
          simp only
          rw [alook_aset_self]
          rfl
      · rw [if_neg (by simpa using himp)] at hr
        cases hr
        simp [hc]

theorem expand_some (h : String → CState → Option Cost) (s : CState) (q : Cost) :
    ∀ (succs : List Act) (ss : SS),
      (alook ss.steps s).isSome → (∀ a ∈ succs, (h a.1 a.2.1).isSome) →
      ∃ ss', expand h s q ss succs = some ss' := by
  intro succs
  induction succs with
  | nil => intro ss _ _; exact ⟨ss, rfl⟩
  | cons a as ih =>
    intro ss hst hh
    obtain ⟨ss1, hss1⟩ := relax_some h s q ss a hst (hh a (by simp))
    unfold expand
    rw [hss1]
    exact ih ss1 (relax_steps_isSome h s q ss ss1 a s hss1 hst)
      (fun a' ha' => hh a' (List.mem_cons_of_mem _ ha'))

theorem expand_costs_isSome (h : String → CState → Option Cost) (s : CState) (q : Cost) :
    ∀ (succs : List Act) (ss ss' : SS) (x : CState),
      expand h s q ss succs = some ss' → (alook ss.costs x).isSome →
      (alook ss'.costs x).isSome := by
  intro succs
  induction succs with
  | nil => intro ss ss' x he hx; cases he; exact hx
  | cons a as ih =>
    intro ss ss' x he hx
    unfold expand at he
    cases hr : relax h s q ss a with
    | none => rw [hr] at he; cases he
    | some ss1 =>
      rw [hr] at he
      exact ih ss1 ss' x he (relax_costs_isSome h s q ss ss1 a x hr hx)

theorem expand_records (h : String → CState → Option Cost) (s : CState) (q : Cost) :
    ∀ (succs : List Act) (ss ss' : SS) (n : String) (s2 : CState) (w : Cost),
      expand h s q ss succs = some ss' → (n, s2, w) ∈ succs →
      (alook ss'.costs s2).isSome := by
  intro succs
  induction succs with
  | nil => intro ss ss' n s2 w _ hm; cases hm
  | cons a as ih =>
    intro ss ss' n s2 w he hm
    unfold expand at he
    cases hr : relax h s q ss a with
    | none => rw [hr] at he; cases he
    | some ss1 =>
      rw [hr] at he
      rcases List.mem_cons.mp hm with rfl | hm'
      · exact expand_costs_isSome h s q as ss1 ss' s2 he
          (relax_records h s q ss ss1 n s2 w hr)
      · exact ih ss1 ss' n s2 w he hm'

/-! ## Claim C1: no stale-entry re-validation at pop time -/

/-- C1, counterexample.  In the third loop pass of a concrete run the popped
entry's cost (5) differs from the best-known cost of its state (2), yet the
engine expands it rather than discarding it: the expansion records the new
state `x = 3` (at cost 12, computed from the superseded popped cost), whereas
the re-validating pop step prescribed by the spec discards the entry and
leaves every map unchanged. -/
theorem c1_counterexample :
    stepsN c1Graph c1Goal c1H 2 (initSS [("x", 0)]) = some c1ss ∧
    popMin c1ss.queue = some (((5 : Cost), [("x", 1)]), [((⊤ : Cost), [("x", 1)])]) ∧
    alook c1ss.costs [("x", 1)] = some 2 ∧
    ((2 : Cost) ≠ (5 : Cost)) ∧
    searchStep c1Graph c1Goal c1H c1ss = .next c1ssE ∧
    alook c1ssE.costs [("x", 3)] = some 12 ∧
    alook c1ss.costs [("x", 3)] = none ∧
    searchStepSpec c1Graph c1Goal c1H c1ss = .next { c1ss with queue := [((⊤ : Cost), [("x", 1)])] } := by
  refine ⟨rfl, rfl, rfl, by decide, rfl, rfl, rfl, rfl⟩

/-- C1, amended: the engine never compares the popped cost against the
best-known-cost map: every popped non-goal entry is expanded, stale entries
included — a popped entry whose cost differs from the best-known value still
has all its successors relaxed (from the superseded popped cost), and an
unrecorded successor becomes recorded instead of the entry being discarded
without expansion. -/
theorem c1_stale_pop_expands (g : CState → Option (List Act)) (isGoal : CState → Option Bool)
    (h : String → CState → Option Cost) (ss : SS) (q : Cost) (s : CState)
    (rest : List (Cost × CState)) (c : Cost) (succs : List Act)
    (n : String) (s2 : CState) (w : Cost) (m : Nat)
    (hpop : popMin ss.queue = some ((q, s), rest))
    (hstale : alook ss.costs s = some c) (hne : c ≠ q)
    (hng : isGoal s = some false)
    (hg : g s = some succs)
    (hmem : (n, s2, w) ∈ succs)
    (hsteps : alook ss.steps s = some m)
    (hh : ∀ a ∈ succs, (h a.1 a.2.1).isSome) :
    ∃ ss', searchStep g isGoal h ss = .next ss' ∧ (alook ss'.costs s2).isSome := by
  unfold searchStep
  simp only [hpop, hng, hg]
  obtain ⟨ss', hss'⟩ := expand_some h s q succs { ss with queue := rest }
    (by simpa using Option.isSome_iff_exists.mpr ⟨m, hsteps⟩) hh
  rw [hss']
  exact ⟨ss', rfl, expand_records h s q succs _ ss' n s2 w hss' hmem⟩

/-- C1, witness for `c1_stale_pop_expands`, at the concrete stale pop of the
run in `c1_counterexample`. -/
theorem c1_witness :
    searchStep c1Graph c1Goal c1H c1ss = .next c1ssE ∧
    (alook c1ssE.costs [("x", 3)]).isSome := by
  obtain ⟨ss', h1, h2⟩ := c1_stale_pop_expands c1Graph c1Goal c1H c1ss 5 [("x", 1)]
    [((⊤ : Cost), [("x", 1)])] 2 [("d", [("x", 3)], 7)] "d" [("x", 3)] 7 2
    rfl rfl (by decide) rfl rfl (by decide) rfl (by decide)
  have hE : ss' = c1ssE := by
    rw [show searchStep c1Graph c1Goal c1H c1ss = .next c1ssE from rfl] at h1
    injection h1 with h1'
    exact h1'.symm
  rw [hE] at h2
  exact ⟨rfl, h2⟩

/-- C9, witness: the heuristic theorem at a concrete recipe table and state. -/
theorem c9_witness :
    heuristicM [("r", ⟨some ["bench"], none, none⟩)] "r" c9State = some 0 ∨
    heuristicM [("r", ⟨some ["bench"], none, none⟩)] "r" c9State = some ⊤ :=
  c9_heuristic_returns_zero_or_inf [("r", ⟨some ["bench"], none, none⟩)] "r" c9State
    ⟨some ["bench"], none, none⟩ ["bench"] rfl rfl (by decide) (by decide) (by decide)

/-! ## Properties of `heappop` -/

theorem popMin_eq_none {l : List (Cost × CState)} : popMin l = none ↔ l = [] := by
  cases l with
  | nil => simp [popMin]
  | cons e es =>
    simp only [popMin]
    cases popMin es with
    | none => simp
    | some p =>
      obtain ⟨m, rest⟩ := p
      by_cases hlt : entLt m e
      · simp [hlt]
      · simp [hlt]

theorem popMin_perm {l : List (Cost × CState)} {e : Cost × CState}
    {rest : List (Cost × CState)} (h : popMin l = some (e, rest)) :
    l.Perm (e :: rest) := by
  induction l generalizing e rest with
  | nil => cases h
  | cons x xs ih =>
    unfold popMin at h
    cases hp : popMin xs with
    | none =>
      simp only [hp] at h
      cases h
      rw [popMin_eq_none.mp hp]
    | some p =>
      obtain ⟨m, rest'⟩ := p
      simp only [hp] at h
      by_cases hlt : entLt m x
      · rw [if_pos hlt] at h
        cases h
        exact (List.Perm.cons x (ih hp)).trans (List.Perm.swap e x rest')
      · rw [if_neg hlt] at h
        cases h
        exact List.Perm.refl _

theorem entLt_fst_le {m x : Cost × CState} (h : ¬ entLt m x = true) : x.1 ≤ m.1 := by
  simp only [entLt, Bool.or_eq_true, Bool.and_eq_true, decide_eq_true_eq, not_or,
    not_and] at h
  exact le_of_not_lt h.1

theorem entLt_fst_le' {m x : Cost × CState} (h : entLt m x = true) : m.1 ≤ x.1 := by
  simp only [entLt, Bool.or_eq_true, Bool.and_eq_true, decide_eq_true_eq] at h
  rcases h with h | ⟨h, -⟩
  · exact le_of_lt h
  · exact le_of_eq h

theorem popMin_min {l : List (Cost × CState)} {e : Cost × CState}
    {rest : List (Cost × CState)} (h : popMin l = some (e, rest)) :
    ∀ f ∈ l, e.1 ≤ f.1 := by
  induction l generalizing e rest with
  | nil => cases h
  | cons x xs ih =>
    unfold popMin at h
    cases hp : popMin xs with
    | none =>
      simp only [hp] at h
      cases h
      intro f hf
      rcases List.mem_cons.mp hf with rfl | hf
      · exact le_refl _
      · rw [popMin_eq_none.mp hp] at hf
        cases hf
    | some p =>
      obtain ⟨m, rest'⟩ := p
      simp only [hp] at h
      by_cases hlt : entLt m x
      · rw [if_pos hlt] at h
        cases h
        intro f hf
        rcases List.mem_cons.mp hf with rfl | hf
        · exact entLt_fst_le' hlt
        · exact ih hp f hf
      · rw [if_neg hlt] at h
        cases h
        intro f hf
        rcases List.mem_cons.mp hf with rfl | hf
        · exact le_refl _
        · exact le_trans (entLt_fst_le hlt) (ih hp f hf)

theorem popMin_mem {l : List (Cost × CState)} {e : Cost × CState}
    {rest : List (Cost × CState)} (h : popMin l = some (e, rest)) : e ∈ l :=
  (popMin_perm h).symm.subset (by simp)

theorem popMin_rest_mem {l : List (Cost × CState)} {e : Cost × CState}
    {rest : List (Cost × CState)} (h : popMin l = some (e, rest)) :
    ∀ f ∈ rest, f ∈ l :=
  fun f hf => (popMin_perm h).symm.subset (by simp [hf])

/-! ## Predecessor chains -/

theorem RN_aset_of_avoid {m : List (CState × Option (CState × Act))}
    {s2 : CState} {v : Option (CState × Act)} {x : CState}
    (hx : RN m x) (havoid : ¬ OnChain m x s2) :
    RN (aset m s2 v) x := by
  induction hx with
  | base s hs =>
    have hne : s ≠ s2 := fun hh => havoid (hh ▸ OnChain.refl s)
    exact RN.base s (by rw [alook_aset_ne m s2 s v hne]; exact hs)
  | step s ps a hs hps ih =>
    have hne : s ≠ s2 := fun hh => havoid (hh ▸ OnChain.refl s)
    refine RN.step s ps a (by rw [alook_aset_ne m s2 s v hne]; exact hs) ?_
    exact ih (fun hc => havoid (OnChain.step s ps a s2 hs hc))

theorem RN_aset_replay {m : List (CState × Option (CState × Act))}
    {s2 : CState} {v : Option (CState × Act)}
    (hs2new : RN (aset m s2 v) s2) :
    ∀ x, RN m x → RN (aset m s2 v) x := by
  intro x hold
  induction hold with
  | base s' hs' =>
    by_cases h2 : s' = s2
    · subst h2; exact hs2new
    · exact RN.base s' (by rw [alook_aset_ne m s2 s' _ h2]; exact hs')
  | step s' ps' a' hs' hps' ih =>
    by_cases h2 : s' = s2
    · subst h2; exact hs2new
    · exact RN.step s' ps' a' (by rw [alook_aset_ne m s2 s' _ h2]; exact hs') ih

theorem RN_aset_update {m : List (CState × Option (CState × Act))}
    {s s2 : CState} {a : Act}
    (hall : ∀ x, (alook m x).isSome → RN m x)
    (hs : RN m s) (havoid : ¬ OnChain m s s2) :
    ∀ x, (alook (aset m s2 (some (s, a))) x).isSome →
      RN (aset m s2 (some (s, a))) x := by
  have hs2 : RN (aset m s2 (some (s, a))) s2 :=
    RN.step s2 s a (alook_aset_self m s2 _) (RN_aset_of_avoid hs havoid)
  intro x hx
  by_cases hxs : x = s2
  · subst hxs; exact hs2
  · rw [isSome_alook_aset] at hx
    rcases hx with rfl | hx
    · exact hs2
    · exact RN_aset_replay hs2 x (hall x hx)

theorem onChain_costs_le (m : List (CState × Option (CState × Act)))
    (costs : List (CState × Cost))
    (hchain : ∀ s ps pa, alook m s = some (some (ps, pa)) →
      ∃ cp cs', alook costs ps = some cp ∧ alook costs s = some cs' ∧ cp ≤ cs')
    {a b : CState} (hoc : OnChain m a b) (ha : (alook costs a).isSome) :
    ∃ ca cb, alook costs a = some ca ∧ alook costs b = some cb ∧ cb ≤ ca := by
  induction hoc with
  | refl a =>
    obtain ⟨ca, hca⟩ := Option.isSome_iff_exists.mp ha
    exact ⟨ca, ca, hca, hca, le_refl _⟩
  | step a ps pa b hma hoc ih =>
    obtain ⟨cp, ca, hcp, hca, hle⟩ := hchain a ps pa hma
    obtain ⟨cps, cb, hcps, hcb, hle2⟩ := ih (Option.isSome_iff_exists.mpr ⟨cp, hcp⟩)
    refine ⟨ca, cb, hca, hcb, ?_⟩
    rw [hcp] at hcps
    cases hcps
    exact le_trans hle2 (le_trans hle (le_refl _))

/-! ## The loop invariant of `search` (tier A: any non-negative heuristic) -/

theorem invA_chain_le (g : CState → Option (List Act)) (start : CState) (ss : SS)
    (HW : ∀ s l, g s = some l → ∀ a ∈ l, (0 : Cost) ≤ a.2.2)
    (inv : InvA g start ss) :
    ∀ s ps pa, alook ss.passed s = some (some (ps, pa)) →
      ∃ cp cs', alook ss.costs ps = some cp ∧ alook ss.costs s = some cs' ∧ cp ≤ cs' := by
  intro s ps pa hm
  obtain ⟨n, s2, w⟩ := pa
  obtain ⟨-, ⟨l, hgl, hml⟩, ⟨cp, cs', hcp, hcs', hle⟩⟩ := inv.chain s ps n s2 w hm
  have hw : (0 : Cost) ≤ w := HW ps l hgl (n, s2, w) hml
  exact ⟨cp, cs', hcp, hcs', le_trans (le_add_of_nonneg_right hw) hle⟩

theorem invA_init (g : CState → Option (List Act)) (start : CState) :
    InvA g start (initSS start) := by
  refine ⟨?_, ?_, ?_, ?_, ?_, ?_, ?_, ?_, ?_, ?_⟩
  · intro e he
    simp only [initSS, List.mem_singleton] at he
    subst he
    exact ⟨0, by simp [alook], le_refl _⟩
  · intro e he
    simp only [initSS, List.mem_singleton] at he
    subst he
    exact le_refl _
  · intro s c hc
    simp only [initSS, alook_cons] at hc
    by_cases hstart : start = s
    · rw [if_pos hstart] at hc
      cases hc
      exact le_refl _
    · rw [if_neg hstart] at hc
      cases hc
  · intro s
    simp only [initSS, alook_cons]
    by_cases hstart : start = s <;> simp [hstart]
  · intro s
    simp only [initSS, alook_cons]
    by_cases hstart : start = s <;> simp [hstart]
  · simp [initSS, alook]
  · simp [initSS, alook]
  · intro s hs
    simp only [initSS, alook_cons] at hs
    by_cases hstart : start = s
    · exact hstart.symm
    · rw [if_neg hstart] at hs
      cases hs
  · intro s ps n s2 w hm
    simp only [initSS, alook_cons] at hm
    by_cases hstart : start = s
    · rw [if_pos hstart] at hm
      cases hm
    · rw [if_neg hstart] at hm
      cases hm
  · intro s hs
    simp only [initSS, alook_cons] at hs
    by_cases hstart : start = s
    · subst hstart
      exact RN.base start (by simp [initSS, alook])
    · rw [if_neg hstart] at hs
      cases hs

theorem record_invA (g : CState → Option (List Act)) (h : String → CState → Option Cost)
    (start : CState)
    (HW : ∀ s l, g s = some l → ∀ a ∈ l, (0 : Cost) ≤ a.2.2)
    (HH : ∀ n s v, h n s = some v → (0 : Cost) ≤ v)
    (s : CState) (q : Cost) (n : String) (s2 : CState) (w : Cost) (st : Nat) (hv : Cost)
    (ss : SS) (l : List Act) (cS : Cost)
    (hg : g s = some l) (hal : (n, s2, w) ∈ l)
    (hq : (0 : Cost) ≤ q) (hcs : alook ss.costs s = some cS) (hcsq : cS ≤ q)
    (inv : InvA g start ss)
    (hhv : h n s2 = some hv)
    (hcase : alook ss.costs s2 = none ∨ (∃ c2, alook ss.costs s2 = some c2 ∧ q + w < c2)) :
    InvA g start
      { queue := (hv + (q + w), s2) :: ss.queue,
        costs := aset ss.costs s2 (q + w),
        steps := aset ss.steps s2 (st + 1),
        passed := aset ss.passed s2 (some (s, (n, s2, w))) } ∧
    alook (aset ss.costs s2 (q + w)) s = some cS := by
  have hw : (0 : Cost) ≤ w := HW s l hg (n, s2, w) hal
  have hhv0 : (0 : Cost) ≤ hv := HH n s2 hv hhv
  have hpc0 : (0 : Cost) ≤ q + w := add_nonneg hq hw
  have hs2s : s2 ≠ s := by
    intro hh
    subst hh
    rcases hcase with hnone | ⟨c2, hc2, hlt⟩
    · rw [hcs] at hnone; cases hnone
    · rw [hcs] at hc2
      cases hc2
      exact absurd hlt (not_lt_of_le (le_trans hcsq (le_add_of_nonneg_right hw)))
  have hs2start : s2 ≠ start := by
    intro hh
    subst hh
    rcases hcase with hnone | ⟨c2, hc2, hlt⟩
    · rw [inv.startC] at hnone; cases hnone
    · rw [inv.startC] at hc2
      cases hc2
      exact absurd hlt (not_lt_of_le hpc0)
  have hsome : (alook ss.costs s).isSome := Option.isSome_iff_exists.mpr ⟨cS, hcs⟩
  have havoid : ¬ OnChain ss.passed s s2 := by
    intro hoc
    obtain ⟨ca, cb, hca, hcb, hble⟩ :=
      onChain_costs_le ss.passed ss.costs (invA_chain_le g start ss HW inv) hoc hsome
    rw [hcs] at hca
    cases hca
    rcases hcase with hnone | ⟨c2, hc2, hlt⟩
    · rw [hcb] at hnone; cases hnone
    · rw [hcb] at hc2
      cases hc2
      exact absurd hlt (not_lt_of_le (le_trans hble
        (le_trans hcsq (le_add_of_nonneg_right hw))))
  have hRNs : RN ss.passed s := inv.reach s ((inv.keysCP s).mp hsome)
  have hcostsS : alook (aset ss.costs s2 (q + w)) s = some cS := by
    rw [alook_aset_ne ss.costs s2 s _ (fun hh => hs2s hh.symm)]
    exact hcs
  refine ⟨⟨?_, ?_, ?_, ?_, ?_, ?_, ?_, ?_, ?_, ?_⟩, hcostsS⟩
  · -- qKeys
    intro e he
    rcases List.mem_cons.mp he with rfl | he
    · exact ⟨q + w, alook_aset_self _ _ _, le_add_of_nonneg_left hhv0⟩
    · obtain ⟨c, hc, hce⟩ := inv.qKeys e he
      by_cases he2 : e.2 = s2
      · rw [he2] at hc
        rcases hcase with hnone | ⟨c2, hc2, hlt⟩
        · rw [hc] at hnone; cases hnone
        · rw [hc] at hc2
          cases hc2
          refine ⟨q + w, ?_, le_trans (le_of_lt hlt) hce⟩
          rw [he2]
          exact alook_aset_self _ _ _
      · refine ⟨c, ?_, hce⟩
        rw [alook_aset_ne ss.costs s2 e.2 _ he2]
        exact hc
  · -- qNonneg
    intro e he
    rcases List.mem_cons.mp he with rfl | he
    · exact add_nonneg hhv0 hpc0
    · exact inv.qNonneg e he
  · -- cNonneg
    intro x c hx
    by_cases hx2 : x = s2
    · subst hx2
      rw [alook_aset_self] at hx
      cases hx
      exact hpc0
    · rw [alook_aset_ne ss.costs s2 x _ hx2] at hx
      exact inv.cNonneg x c hx
  · -- keysCS
    intro x
    rw [isSome_alook_aset, isSome_alook_aset]
    exact or_congr Iff.rfl (inv.keysCS x)
  · -- keysCP
    intro x
    rw [isSome_alook_aset, isSome_alook_aset]
    exact or_congr Iff.rfl (inv.keysCP x)
  · -- startC
    rw [alook_aset_ne ss.costs s2 start _ (fun hh => hs2start hh.symm)]
    exact inv.startC
  · -- startP
    rw [alook_aset_ne ss.passed s2 start _ (fun hh => hs2start hh.symm)]
    exact inv.startP
  · -- noneOnly
    intro x hx
    by_cases hx2 : x = s2
    · subst hx2
      rw [alook_aset_self] at hx
      cases hx
    · rw [alook_aset_ne ss.passed s2 x _ hx2] at hx
      exact inv.noneOnly x hx
  · -- chain
    intro x ps' n' x2 w' hx
    by_cases hx2 : x = s2
    · subst hx2
      rw [alook_aset_self] at hx
      injection hx with hx
      injection hx with hx
      injection hx with hx1 hx2'
      subst hx1
      injection hx2' with hn hx2''
      subst hn
      injection hx2'' with hx2a hx2b
      subst hx2a
      subst hx2b
      refine ⟨rfl, ⟨l, hg, hal⟩, ⟨cS, q + w, hcostsS, alook_aset_self _ _ _, ?_⟩⟩
      exact add_le_add_right hcsq w
    · rw [alook_aset_ne ss.passed s2 x _ hx2] at hx
      obtain ⟨hxeq, hedge, ⟨cp, cx, hcp, hcx, hle⟩⟩ := inv.chain x ps' n' x2 w' hx
      refine ⟨hxeq, hedge, ?_⟩
      by_cases hps2 : ps' = s2
      · subst hps2
        rcases hcase with hnone | ⟨c2, hc2, hlt⟩
        · rw [hcp] at hnone; cases hnone
        · rw [hcp] at hc2
          cases hc2
          refine ⟨q + w, cx, alook_aset_self _ _ _, ?_, ?_⟩
          · rw [alook_aset_ne ss.costs ps' x _ hx2]
            exact hcx
          · exact le_trans (add_le_add_right (le_of_lt hlt) w') hle
      · refine ⟨cp, cx, ?_, ?_, hle⟩
        · rw [alook_aset_ne ss.costs s2 ps' _ hps2]
          exact hcp
        · rw [alook_aset_ne ss.costs s2 x _ hx2]
          exact hcx
  · -- reach
    exact RN_aset_update inv.reach hRNs havoid

theorem relax_invA (g : CState → Option (List Act)) (h : String → CState → Option Cost)
    (start : CState)
    (HW : ∀ s l, g s = some l → ∀ a ∈ l, (0 : Cost) ≤ a.2.2)
    (HH : ∀ n s v, h n s = some v → (0 : Cost) ≤ v)
    (s : CState) (q : Cost) (ss ss' : SS) (l : List Act) (a : Act)
    (hg : g s = some l) (hal : a ∈ l) (hq : (0 : Cost) ≤ q)
    (hcs : ∃ cS, alook ss.costs s = some cS ∧ cS ≤ q)
    (inv : InvA g start ss)
    (hr : relax h s q ss a = some ss') :
    InvA g start ss' ∧ ∃ cS, alook ss'.costs s = some cS ∧ cS ≤ q := by
  obtain ⟨n, s2, w⟩ := a
  obtain ⟨cS, hcS, hcSq⟩ := hcs
  unfold relax at hr
  simp only at hr
  cases hst : alook ss.steps s with
  | none => rw [hst] at hr; cases hr
  | some st =>
    rw [hst] at hr
    simp only at hr
    by_cases himp : (match alook ss.costs s2 with
                     | none => true
                     | some c => decide (q + w < c)) = true
    · rw [if_pos himp] at hr
      cases hh : h n s2 with
      | none => rw [hh] at hr; cases hr
      | some hv =>
        rw [hh] at hr
        cases hr
        have hcase : alook ss.costs s2 = none ∨
            (∃ c2, alook ss.costs s2 = some c2 ∧ q + w < c2) := by
          cases hc2 : alook ss.costs s2 with
          | none => exact Or.inl rfl
          | some c2 =>
            rw [hc2] at himp
            exact Or.inr ⟨c2, rfl, of_decide_eq_true himp⟩
        obtain ⟨hinv, hcs'⟩ := record_invA g h start HW HH s q n s2 w st hv ss l cS
          hg hal hq hcS hcSq inv hh hcase
        exact ⟨hinv, cS, hcs', hcSq⟩
    · rw [if_neg himp] at hr
      cases hr
      exact ⟨inv, cS, hcS, hcSq⟩

theorem expand_invA (g : CState → Option (List Act)) (h : String → CState → Option Cost)
    (start : CState)
    (HW : ∀ s l, g s = some l → ∀ a ∈ l, (0 : Cost) ≤ a.2.2)
    (HH : ∀ n s v, h n s = some v → (0 : Cost) ≤ v)
    (s : CState) (q : Cost) :
    ∀ (succs : List Act) (ss ss' : SS) (l : List Act),
      g s = some l → (∀ a ∈ succs, a ∈ l) → (0 : Cost) ≤ q →
      (∃ cS, alook ss.costs s = some cS ∧ cS ≤ q) →
      InvA g start ss → expand h s q ss succs = some ss' →
      InvA g start ss' := by
  intro succs
  induction succs with
  | nil =>
    intro ss ss' l _ _ _ _ inv he
    cases he
    exact inv
  | cons a as ih =>
    intro ss ss' l hg hsub hq hcs inv he
    unfold expand at he
    cases hr : relax h s q ss a with
    | none => rw [hr] at he; cases he
    | some ss1 =>
      rw [hr] at he
      obtain ⟨inv1, hcs1⟩ := relax_invA g h start HW HH s q ss ss1 l a hg
        (hsub a (by simp)) hq hcs inv hr
      exact ih ss1 ss' l hg (fun a' ha' => hsub a' (List.mem_cons_of_mem _ ha'))
        hq hcs1 inv1 he

theorem invA_pop (g : CState → Option (List Act)) (start : CState) (ss : SS)
    (e : Cost × CState) (rest : List (Cost × CState))
    (inv : InvA g start ss) (hpop : popMin ss.queue = some (e, rest)) :
    InvA g start { ss with queue := rest } := by
  refine ⟨?_, ?_, inv.cNonneg, inv.keysCS, inv.keysCP, inv.startC, inv.startP,
    inv.noneOnly, inv.chain, inv.reach⟩
  · intro f hf
    exact inv.qKeys f (popMin_rest_mem hpop f hf)
  · intro f hf
    exact inv.qNonneg f (popMin_rest_mem hpop f hf)

theorem step_invA (g : CState → Option (List Act)) (isGoal : CState → Option Bool)
    (h : String → CState → Option Cost) (start : CState) (ss ss' : SS)
    (HW : ∀ s l, g s = some l → ∀ a ∈ l, (0 : Cost) ≤ a.2.2)
    (HH : ∀ n s v, h n s = some v → (0 : Cost) ≤ v)
    (inv : InvA g start ss)
    (hstep : searchStep g isGoal h ss = .next ss') : InvA g start ss' := by
  unfold searchStep at hstep
  cases hpop : popMin ss.queue with
  | none => rw [hpop] at hstep; cases hstep
  | some p =>
    obtain ⟨⟨q, s⟩, rest⟩ := p
    simp only [hpop] at hstep
    cases hig : isGoal s with
    | none => rw [hig] at hstep; cases hstep
    | some b =>
      rw [hig] at hstep
      cases b with
      | true =>
        cases hc : alook ss.costs s with
        | none =>
          simp only [hc] at hstep
          cases hstep
        | some c =>
          cases hst2 : alook ss.steps s with
          | none =>
            simp only [hc, hst2] at hstep
            cases hstep
          | some st =>
            simp only [hc, hst2] at hstep
            cases hrec : reconstruct ss.passed s (ss.passed.length + 1) with
            | none =>
              simp only [hrec] at hstep
              cases hstep
            | some path =>
              simp only [hrec] at hstep
              cases hstep
      | false =>
        simp only at hstep
        cases hgs : g s with
        | none => rw [hgs] at hstep; cases hstep
        | some succs =>
          rw [hgs] at hstep
          simp only at hstep
          cases hexp : expand h s q { ss with queue := rest } succs with
          | none => rw [hexp] at hstep; cases hstep
          | some ss'' =>
            rw [hexp] at hstep
            injection hstep with hstep
            subst hstep
            have hq : (0 : Cost) ≤ q := inv.qNonneg (q, s) (popMin_mem hpop)
            obtain ⟨cS, hcS, hcSq⟩ := inv.qKeys (q, s) (popMin_mem hpop)
            exact expand_invA g h start HW HH s q succs { ss with queue := rest }
              ss'' succs hgs (fun a ha => ha) hq ⟨cS, hcS, hcSq⟩
              (invA_pop g start ss (q, s) rest inv hpop) hexp

/-! ## Reachable loop states -/

theorem reach_invA (g : CState → Option (List Act)) (isGoal : CState → Option Bool)
    (h : String → CState → Option Cost) (start : CState) (ss : SS)
    (P : List (Cost × CState))
    (HW : ∀ s l, g s = some l → ∀ a ∈ l, (0 : Cost) ≤ a.2.2)
    (HH : ∀ n s v, h n s = some v → (0 : Cost) ≤ v)
    (hr : Reach g isGoal h start ss P) : InvA g start ss := by
  induction hr with
  | init => exact invA_init g start
  | step ss P e rest ss' _ _ hstep ih =>
    exact step_invA g isGoal h start ss ss' HW HH ih hstep

/-! ## Claim C10 -/

/-- C10: throughout every invocation of the search loop (with non-negative
edge costs and a non-negative heuristic, as in this program), the best-known-
cost, step-count and predecessor maps have identical key sets; the initial
state's predecessor entry is the `None` sentinel and it alone; every other
recorded state's predecessor entry is a pair whose predecessor state is
itself a recorded key; and the predecessor chain from any recorded state
reaches the sentinel. -/
theorem c10_search_map_invariants (g : CState → Option (List Act))
    (isGoal : CState → Option Bool) (h : String → CState → Option Cost)
    (start : CState) (ss : SS) (P : List (Cost × CState))
    (HW : ∀ s l, g s = some l → ∀ a ∈ l, (0 : Cost) ≤ a.2.2)
    (HH : ∀ n s v, h n s = some v → (0 : Cost) ≤ v)
    (hr : Reach g isGoal h start ss P) :
    (∀ s, ((alook ss.costs s).isSome ↔ (alook ss.steps s).isSome) ∧
          ((alook ss.costs s).isSome ↔ (alook ss.passed s).isSome)) ∧
    alook ss.passed start = some none ∧
    (∀ s pr, alook ss.passed s = some pr → (pr = none ↔ s = start)) ∧
    (∀ s pr, alook ss.passed s = some pr → s ≠ start →
      ∃ ps a, pr = some (ps, a) ∧ (alook ss.costs ps).isSome ∧
        (alook ss.passed ps).isSome) ∧
    (∀ s, (alook ss.passed s).isSome → RN ss.passed s) := by
  have inv := reach_invA g isGoal h start ss P HW HH hr
  refine ⟨fun s => ⟨inv.keysCS s, inv.keysCP s⟩, inv.startP, ?_, ?_, inv.reach⟩
  · intro s pr hpr
    constructor
    · intro hnone
      subst hnone
      exact inv.noneOnly s hpr
    · intro hstart
      subst hstart
      rw [inv.startP] at hpr
      cases hpr
      rfl
  · intro s pr hpr hne
    cases pr with
    | none => exact absurd (inv.noneOnly s hpr) hne
    | some p =>
      obtain ⟨ps, n, s2, w⟩ := p
      obtain ⟨-, -, ⟨cp, cs', hcp, -, -⟩⟩ := inv.chain s ps n s2 w hpr
      have hsome : (alook ss.costs ps).isSome := Option.isSome_iff_exists.mpr ⟨cp, hcp⟩
      exact ⟨ps, (n, s2, w), rfl, hsome, (inv.keysCP ps).mp hsome⟩

/-- C10, witness: the invariant theorem at the initial configuration of a
concrete one-state domain. -/
theorem c10_witness :
    alook (initSS [("x", (0 : Int))]).passed [("x", (0 : Int))] = some none ∧
    RN (initSS [("x", (0 : Int))]).passed [("x", (0 : Int))] := by
  have hinv := c10_search_map_invariants (fun _ => some []) (fun _ => some false)
    (fun _ _ => some 0) [("x", (0 : Int))] (initSS [("x", (0 : Int))]) []
    (by intro s l hl a ha; cases hl; cases ha)
    (by intro n s v hv; cases hv; exact le_refl _)
    Reach.init
  exact ⟨hinv.2.1, hinv.2.2.2.2 [("x", (0 : Int))] (by rw [hinv.2.1]; rfl)⟩

/-! ## Plans and reachability -/

theorem planCost_reverse (p : List (CState × Act)) : planCost p.reverse = planCost p := by
  unfold planCost
  rw [List.map_reverse, List.sum_reverse]

/-! ## Monotonicity of recorded costs -/

theorem relax_costs_mono (h : String → CState → Option Cost) (s : CState) (q : Cost)
    (ss ss' : SS) (a : Act) (x : CState) (c : Cost)
    (hr : relax h s q ss a = some ss') (hx : alook ss.costs x = some c) :
    ∃ c' ≤ c, alook ss'.costs x = some c' := by
  obtain ⟨n, s2, w⟩ := a
  unfold relax at hr
  simp only at hr
  cases hst : alook ss.steps s with
  | none => rw [hst] at hr; cases hr
  | some st =>
    rw [hst] at hr
    simp only at hr
    by_cases himp : (match alook ss.costs s2 with
                     | none => true
                     | some c => decide (q + w < c)) = true
    · rw [if_pos himp] at hr
      cases hh : h n s2 with
      | none => rw [hh] at hr; cases hr
      | some hv =>
        rw [hh] at hr
        cases hr
        by_cases hx2 : x = s2
        · subst hx2
          rw [hx] at himp
          simp only
          refine ⟨q + w, le_of_lt (of_decide_eq_true himp), alook_aset_self _ _ _⟩
        · refine ⟨c, le_refl c, ?_⟩
          simp only
          rw [alook_aset_ne ss.costs s2 x _ hx2]
          exact hx
    · rw [if_neg himp] at hr
      cases hr
      exact ⟨c, le_refl c, hx⟩

theorem expand_costs_mono (h : String → CState → Option Cost) (s : CState) (q : Cost) :
    ∀ (succs : List Act) (ss ss' : SS) (x : CState) (c : Cost),
      expand h s q ss succs = some ss' → alook ss.costs x = some c →
      ∃ c' ≤ c, alook ss'.costs x = some c' := by
  intro succs
  induction succs with
  | nil => intro ss ss' x c he hx; cases he; exact ⟨c, le_refl c, hx⟩
  | cons a as ih =>
    intro ss ss' x c he hx
    unfold expand at he
    cases hr : relax h s q ss a with
    | none => rw [hr] at he; cases he
    | some ss1 =>
      rw [hr] at he
      obtain ⟨c1, hc1le, hc1⟩ := relax_costs_mono h s q ss ss1 a x c hr hx
      obtain ⟨c2, hc2le, hc2⟩ := ih ss1 ss' x c1 he hc1
      exact ⟨c2, le_trans hc2le hc1le, hc2⟩

/-- After a relax of `(n, s2, w)` from popped cost `q`, the recorded cost of
`s2` is at most `q + w`. -/
theorem relax_bound (h : String → CState → Option Cost) (s : CState) (q : Cost)
    (ss ss' : SS) (n : String) (s2 : CState) (w : Cost)
    (hr : relax h s q ss (n, s2, w) = some ss') :
    ∃ c' ≤ q + w, alook ss'.costs s2 = some c' := by
  unfold relax at hr
  simp only at hr
  cases hst : alook ss.steps s with
  | none => rw [hst] at hr; cases hr
  | some st =>
    rw [hst] at hr
    simp only at hr
    cases hc2 : alook ss.costs s2 with
    | none =>
      simp only [hc2] at hr
      cases hh : h n s2 with
      | none => rw [hh] at hr; cases hr
      | some hv =>
        rw [hh] at hr
        cases hr
        exact ⟨q + w, le_refl _, alook_aset_self _ _ _⟩
    | some c2 =>
      simp only [hc2] at hr
      by_cases hlt : q + w < c2
      · rw [if_pos (decide_eq_true hlt)] at hr
        cases hh : h n s2 with
        | none => rw [hh] at hr; cases hr
        | some hv =>
          rw [hh] at hr
          cases hr
          exact ⟨q + w, le_refl _, alook_aset_self _ _ _⟩
      · rw [if_neg (by simpa using hlt)] at hr
        cases hr
        exact ⟨c2, le_of_not_lt hlt, hc2⟩

/-- After expanding the whole successor list from popped cost `q`, every
successor's recorded cost is at most `q` plus its edge cost. -/
theorem expand_bound (h : String → CState → Option Cost) (s : CState) (q : Cost) :
    ∀ (succs : List Act) (ss ss' : SS),
      expand h s q ss succs = some ss' →
      ∀ a ∈ succs, ∃ c' ≤ q + a.2.2, alook ss'.costs a.2.1 = some c' := by
  intro succs
  induction succs with
  | nil => intro ss ss' _ a ha; cases ha
  | cons b as ih =>
    intro ss ss' he a ha
    unfold expand at he
    cases hr : relax h s q ss b with
    | none => rw [hr] at he; cases he
    | some ss1 =>
      rw [hr] at he
      rcases List.mem_cons.mp ha with rfl | ha'
      · obtain ⟨n, s2, w⟩ := a
        obtain ⟨c1, hc1le, hc1⟩ := relax_bound h s q ss ss1 n s2 w hr
        obtain ⟨c2, hc2le, hc2⟩ := expand_costs_mono h s q as ss1 ss' s2 c1 he hc1
        exact ⟨c2, le_trans hc2le hc1le, hc2⟩
      · exact ih ss1 ss' he a ha'

/-! ## The zero-heuristic invariant (tier B) -/

theorem relax_zinv (s : CState) (q : Cost) (ss ss' : SS) (a : Act)
    (P : List (Cost × CState))
    (hr : relax hzero s q ss a = some ss')
    (hz : ∀ x c, alook ss.costs x = some c →
      (∃ p, (p, x) ∈ ss.queue ∧ p ≤ c) ∨ (∃ p, (p, x) ∈ P ∧ p ≤ c)) :
    ∀ x c, alook ss'.costs x = some c →
      (∃ p, (p, x) ∈ ss'.queue ∧ p ≤ c) ∨ (∃ p, (p, x) ∈ P ∧ p ≤ c) := by
  obtain ⟨n, s2, w⟩ := a
  unfold relax at hr
  simp only at hr
  cases hst : alook ss.steps s with
  | none => rw [hst] at hr; cases hr
  | some st =>
    rw [hst] at hr
    simp only at hr
    by_cases himp : (match alook ss.costs s2 with
                     | none => true
                     | some c => decide (q + w < c)) = true
    · rw [if_pos himp] at hr
      simp only [hzero] at hr
      cases hr
      intro x c hx
      by_cases hx2 : x = s2
      · subst hx2
        simp only at hx
        rw [alook_aset_self] at hx
        cases hx
        refine Or.inl ⟨0 + (q + w), List.mem_cons_self _ _, ?_⟩
        rw [zero_add]
      · simp only at hx
        rw [alook_aset_ne ss.costs s2 x _ hx2] at hx
        rcases hz x c hx with ⟨p, hp, hple⟩ | hP
        · exact Or.inl ⟨p, List.mem_cons_of_mem _ hp, hple⟩
        · exact Or.inr hP
    · rw [if_neg himp] at hr
      cases hr
      exact hz

theorem expand_zinv (s : CState) (q : Cost) :
    ∀ (succs : List Act) (ss ss' : SS) (P : List (Cost × CState)),
      expand hzero s q ss succs = some ss' →
      (∀ x c, alook ss.costs x = some c →
        (∃ p, (p, x) ∈ ss.queue ∧ p ≤ c) ∨ (∃ p, (p, x) ∈ P ∧ p ≤ c)) →
      ∀ x c, alook ss'.costs x = some c →
        (∃ p, (p, x) ∈ ss'.queue ∧ p ≤ c) ∨ (∃ p, (p, x) ∈ P ∧ p ≤ c) := by
  intro succs
  induction succs with
  | nil => intro ss ss' P he hz; cases he; exact hz
  | cons a as ih =>
    intro ss ss' P he hz
    unfold expand at he
    cases hr : relax hzero s q ss a with
    | none => rw [hr] at he; cases he
    | some ss1 =>
      rw [hr] at he
      exact ih ss1 ss' P he (relax_zinv s q ss ss1 a P hr hz)

theorem step_invB (g : CState → Option (List Act)) (isGoal : CState → Option Bool)
    (ss ss' : SS) (P : List (Cost × CState)) (q : Cost) (s : CState)
    (rest : List (Cost × CState))
    (hpop : popMin ss.queue = some ((q, s), rest))
    (hstep : searchStep g isGoal hzero ss = .next ss')
    (inv : InvB g isGoal ss P) :
    InvB g isGoal ss' ((q, s) :: P) := by
  unfold searchStep at hstep
  simp only [hpop] at hstep
  cases hig : isGoal s with
  | none => rw [hig] at hstep; cases hstep
  | some b =>
    rw [hig] at hstep
    cases b with
    | true =>
      cases hc : alook ss.costs s with
      | none => simp only [hc] at hstep; cases hstep
      | some c =>
        cases hst2 : alook ss.steps s with
        | none => simp only [hc, hst2] at hstep; cases hstep
        | some st =>
          simp only [hc, hst2] at hstep
          cases hrec : reconstruct ss.passed s (ss.passed.length + 1) with
          | none => simp only [hrec] at hstep; cases hstep
          | some path => simp only [hrec] at hstep; cases hstep
    | false =>
      simp only at hstep
      cases hgs : g s with
      | none => rw [hgs] at hstep; cases hstep
      | some succs =>
        rw [hgs] at hstep
        simp only at hstep
        cases hexp : expand hzero s q { ss with queue := rest } succs with
        | none => rw [hexp] at hstep; cases hstep
        | some ss'' =>
          rw [hexp] at hstep
          injection hstep with hstep
          subst hstep
          have hzmid : ∀ x c, alook ({ ss with queue := rest } : SS).costs x = some c →
              (∃ p, (p, x) ∈ ({ ss with queue := rest } : SS).queue ∧ p ≤ c) ∨
              (∃ p, (p, x) ∈ ((q, s) :: P) ∧ p ≤ c) := by
            intro x c hx
            rcases inv.zinv x c hx with ⟨p, hp, hple⟩ | ⟨p, hp, hple⟩
            · have := (popMin_perm hpop).mem_iff.mp hp
              rcases List.mem_cons.mp this with heq | hmem
              · exact Or.inr ⟨p, by rw [heq]; exact List.mem_cons_self _ _, hple⟩
              · exact Or.inl ⟨p, hmem, hple⟩
            · exact Or.inr ⟨p, List.mem_cons_of_mem _ hp, hple⟩
          refine ⟨?_, expand_zinv s q succs { ss with queue := rest } ss''
            ((q, s) :: P) hexp hzmid⟩
          intro e he
          rcases List.mem_cons.mp he with rfl | he'
          · refine ⟨hig, succs, hgs, ?_⟩
            intro a ha
            exact expand_bound hzero s q succs _ ss'' hexp a ha
          · obtain ⟨hgoal, l, hgl, hbounds⟩ := inv.wexp e he'
            refine ⟨hgoal, l, hgl, ?_⟩
            intro a ha
            obtain ⟨c', hc'le, hc'⟩ := hbounds a ha
            obtain ⟨c'', hc''le, hc''⟩ := expand_costs_mono hzero s q succs
              { ss with queue := rest } ss'' a.2.1 c' hexp hc'
            exact ⟨c'', le_trans hc''le hc'le, hc''⟩

theorem reach_invB (g : CState → Option (List Act)) (isGoal : CState → Option Bool)
    (start : CState) (ss : SS) (P : List (Cost × CState))
    (hr : Reach g isGoal hzero start ss P) : InvB g isGoal ss P := by
  induction hr with
  | init =>
    refine ⟨fun e he => absurd he (List.not_mem_nil e), ?_⟩
    intro x c hx
    simp only [initSS, alook_cons] at hx
    by_cases hxs : start = x
    · subst hxs
      rw [if_pos rfl] at hx
      cases hx
      exact Or.inl ⟨0, by simp [initSS], le_refl _⟩
    · rw [if_neg hxs] at hx
      cases hx
  | step ss P e rest ss' _ hpop hstep ih =>
    obtain ⟨q, s⟩ := e
    exact step_invB g isGoal ss ss' P q s rest hpop hstep ih

theorem searchStep_next_pop (g : CState → Option (List Act)) (isGoal : CState → Option Bool)
    (h : String → CState → Option Cost) (ss ss' : SS)
    (hstep : searchStep g isGoal h ss = .next ss') :
    ∃ e rest, popMin ss.queue = some (e, rest) := by
  unfold searchStep at hstep
  cases hpop : popMin ss.queue with
  | none => rw [hpop] at hstep; cases hstep
  | some p => exact ⟨p.1, p.2, by rw [← hpop]⟩

theorem searchRun_plan (g : CState → Option (List Act)) (isGoal : CState → Option Bool)
    (h : String → CState → Option Cost) (start : CState) :
    ∀ (fuel : Nat) (ss : SS) (P : List (Cost × CState)) (p : List (CState × Act)),
      Reach g isGoal h start ss P →
      searchRun g isGoal h fuel ss = .plan p →
      ∃ ss' P', Reach g isGoal h start ss' P' ∧
        searchStep g isGoal h ss' = .done (.plan p) := by
  intro fuel
  induction fuel with
  | zero => intro ss P p _ hrun; cases hrun
  | succ n ih =>
    intro ss P p hreach hrun
    unfold searchRun at hrun
    cases hstep : searchStep g isGoal h ss with
    | done o =>
      rw [hstep] at hrun
      simp only at hrun
      subst hrun
      exact ⟨ss, P, hreach, hstep⟩
    | next ss2 =>
      rw [hstep] at hrun
      obtain ⟨e, rest, hpop⟩ := searchStep_next_pop g isGoal h ss ss2 hstep
      exact ih ss2 (e :: P) p (Reach.step ss P e rest ss2 hreach hpop hstep) hrun

/-- Soundness of path reconstruction: under the loop invariant, a successful
reconstruction from `s` yields a genuine action sequence from the initial
state to `s` whose total cost is bounded by the recorded cost of `s`. -/
theorem reconstruct_spec (g : CState → Option (List Act)) (start : CState) (ss : SS)
    (inv : InvA g start ss) :
    ∀ (fuel : Nat) (s : CState) (path : List (CState × Act)),
      reconstruct ss.passed s fuel = some path →
      Reaches g start s (planCost path) ∧
      (∀ cs', alook ss.costs s = some cs' → planCost path ≤ cs') := by
  intro fuel
  induction fuel with
  | zero => intro s path hrec; cases hrec
  | succ n ih =>
    intro s path hrec
    unfold reconstruct at hrec
    cases hm : alook ss.passed s with
    | none => rw [hm] at hrec; cases hrec
    | some pr =>
      rw [hm] at hrec
      cases pr with
      | none =>
        simp only at hrec
        cases hrec
        have hstart : s = start := inv.noneOnly s hm
        subst hstart
        constructor
        · exact Reaches.refl
        · intro cs' _
          exact inv.cNonneg s cs' (by assumption)
      | some pp =>
        obtain ⟨ps, n', s2, w⟩ := pp
        simp only at hrec
        cases hrec2 : reconstruct ss.passed ps n with
        | none => rw [hrec2] at hrec; cases hrec
        | some rest =>
          rw [hrec2] at hrec
          simp only at hrec
          cases hrec
          obtain ⟨hs2, ⟨l, hgl, hml⟩, ⟨cp, cs', hcp, hcs', hle⟩⟩ := inv.chain s ps n' s2 w hm
          subst hs2
          obtain ⟨hreach, hbound⟩ := ih ps rest hrec2
          have hcost : planCost ((s2, (n', s2, w)) :: rest) = planCost rest + w := by
            unfold planCost
            simp [add_comm]
          constructor
          · rw [hcost]
            exact Reaches.step ps (planCost rest) l n' s2 w hreach hgl hml
          · intro cx hcx
            rw [hcs'] at hcx
            cases hcx
            rw [hcost]
            calc planCost rest + w ≤ cp + w := add_le_add_right (hbound cp hcp) w
              _ ≤ cs' := hle

/-- The frontier lemma: before any goal has been popped, every state plan-
reachable with cost `c` witnesses either a queue entry of priority at most
`c` or an expanded entry of its own with priority at most `c`. -/
theorem reaches_frontier (g : CState → Option (List Act)) (isGoal : CState → Option Bool)
    (start : CState) (ss : SS) (P : List (Cost × CState))
    (HW : ∀ s l, g s = some l → ∀ a ∈ l, (0 : Cost) ≤ a.2.2)
    (invA : InvA g start ss) (invB : InvB g isGoal ss P) :
    ∀ s c, Reaches g start s c →
      (∃ e ∈ ss.queue, e.1 ≤ c) ∨ (∃ p, (p, s) ∈ P ∧ p ≤ c) := by
  intro s c hreach
  induction hreach with
  | refl =>
    rcases invB.zinv start 0 invA.startC with ⟨p, hp, hple⟩ | ⟨p, hp, hple⟩
    · exact Or.inl ⟨(p, start), hp, hple⟩
    · exact Or.inr ⟨p, hp, hple⟩
  | step s1 c1 l n s2 w hr1 hgl hml ih =>
    have hw : (0 : Cost) ≤ w := HW s1 l hgl (n, s2, w) hml
    rcases ih with ⟨e, he, hec⟩ | ⟨p, hp, hpc⟩
    · exact Or.inl ⟨e, he, le_trans hec (le_add_of_nonneg_right hw)⟩
    · obtain ⟨-, l', hgl', hbounds⟩ := invB.wexp (p, s1) hp
      rw [hgl] at hgl'
      cases hgl'
      obtain ⟨c', hc'le, hc'⟩ := hbounds (n, s2, w) hml
      rcases invB.zinv s2 c' hc' with ⟨p2, hp2, hp2le⟩ | ⟨p2, hp2, hp2le⟩
      · refine Or.inl ⟨(p2, s2), hp2, ?_⟩
        calc p2 ≤ c' := hp2le
          _ ≤ p + w := hc'le
          _ ≤ c1 + w := add_le_add_right hpc w
      · refine Or.inr ⟨p2, hp2, ?_⟩
        calc p2 ≤ c' := hp2le
          _ ≤ p + w := hc'le
          _ ≤ c1 + w := add_le_add_right hpc w

/-! ## Claim C2 -/

/-- C2, amended: with the constant-zero heuristic and non-negative edge
costs, whenever the search returns a plan, that plan's total cost is the
global minimum over all plans from the initial state to any goal-satisfying
state — it is at most the cost of every goal-reaching action sequence, and it
is itself realised by one. -/
theorem c2_zero_heuristic_plan_is_optimal (g : CState → Option (List Act))
    (isGoal : CState → Option Bool) (start : CState) (fuel : Nat)
    (p : List (CState × Act))
    (HW : ∀ s l, g s = some l → ∀ a ∈ l, (0 : Cost) ≤ a.2.2)
    (hrun : search g isGoal hzero start fuel = .plan p) :
    (∀ s c, Reaches g start s c → isGoal s = some true → planCost p ≤ c) ∧
    (∃ s, Reaches g start s (planCost p) ∧ isGoal s = some true) := by
  have HH : ∀ n s v, hzero n s = some v → (0 : Cost) ≤ v := by
    intro n s v hv
    cases hv
    exact le_refl _
  obtain ⟨ss, P, hreach, hstep⟩ := searchRun_plan g isGoal hzero start fuel
    (initSS start) [] p Reach.init hrun
  have invA := reach_invA g isGoal hzero start ss P HW HH hreach
  have invB := reach_invB g isGoal start ss P hreach
  unfold searchStep at hstep
  cases hpop : popMin ss.queue with
  | none => rw [hpop] at hstep; cases hstep
  | some pr =>
    obtain ⟨⟨qg, sg⟩, rest⟩ := pr
    simp only [hpop] at hstep
    cases hig : isGoal sg with
    | none => rw [hig] at hstep; cases hstep
    | some b =>
      rw [hig] at hstep
      cases b with
      | false =>
        simp only at hstep
        cases hgs : g sg with
        | none =>
          rw [hgs] at hstep
          injection hstep with hstep
          cases hstep
        | some succs =>
          rw [hgs] at hstep
          simp only at hstep
          cases hexp : expand hzero sg qg { ss with queue := rest } succs with
          | none =>
            rw [hexp] at hstep
            injection hstep with hstep
            cases hstep
          | some ss2 =>
            rw [hexp] at hstep
            cases hstep
      | true =>
        cases hc : alook ss.costs sg with
        | none =>
          simp only [hc] at hstep
          injection hstep with hstep
          cases hstep
        | some cg =>
          cases hst2 : alook ss.steps sg with
          | none =>
            simp only [hc, hst2] at hstep
            injection hstep with hstep
            cases hstep
          | some st =>
            simp only [hc, hst2] at hstep
            cases hrec : reconstruct ss.passed sg (ss.passed.length + 1) with
            | none =>
              simp only [hrec] at hstep
              injection hstep with hstep
              cases hstep
            | some path =>
              simp only [hrec] at hstep
              injection hstep with hstep
              injection hstep with hstep
              subst hstep
              obtain ⟨c', hc', hc'le⟩ := invA.qKeys (qg, sg) (popMin_mem hpop)
              rw [hc] at hc'
              cases hc'
              obtain ⟨hreachPath, hboundPath⟩ :=
                reconstruct_spec g start ss invA (ss.passed.length + 1) sg path hrec
              have hpc : planCost path.reverse = planCost path := planCost_reverse path
              have hcostBound : planCost path.reverse ≤ qg := by
                rw [hpc]
                exact le_trans (hboundPath cg hc) hc'le
              constructor
              · intro s c hr hgoal
                rcases reaches_frontier g isGoal start ss P HW invA invB s c hr with
                  ⟨e, he, hec⟩ | ⟨pw, hpw, -⟩
                · exact le_trans hcostBound (le_trans (popMin_min hpop e he) hec)
                · obtain ⟨hfalse, -⟩ := invB.wexp (pw, s) hpw
                  rw [hgoal] at hfalse
                  cases hfalse
              · refine ⟨sg, ?_, hig⟩
                rw [hpc]
                exact hreachPath

theorem craftGraph_cost_nonneg (rs : List CRecipe) (hrs : ∀ r ∈ rs, 0 ≤ r.cost) :
    ∀ s l, craftGraph rs s = some l → ∀ a ∈ l, (0 : Cost) ≤ a.2.2 := by
  induction rs with
  | nil =>
    intro s l hl a ha
    cases hl
    cases ha
  | cons r rest ih =>
    intro s l hl a ha
    have hrs' : ∀ r' ∈ rest, 0 ≤ r'.cost :=
      fun r' hr' => hrs r' (List.mem_cons_of_mem _ hr')
    unfold craftGraph at hl
    cases hchk : check r.rule s with
    | none => rw [hchk] at hl; cases hl
    | some b =>
      rw [hchk] at hl
      cases b with
      | false => exact ih hrs' s l hl a ha
      | true =>
        simp only at hl
        cases heff : effect r.rule s with
        | none => rw [heff] at hl; cases hl
        | some s' =>
          rw [heff] at hl
          simp only at hl
          cases hrest : craftGraph rest s with
          | none => rw [hrest] at hl; cases hl
          | some l' =>
            rw [hrest] at hl
            simp only at hl
            cases hl
            rcases List.mem_cons.mp ha with rfl | ha'
            · simp only
              exact_mod_cast hrs r (List.mem_cons_self _ _)
            · exact ih hrs' s l' hrest a ha'

/-- C2, witness: on Scenario C the search returns a plan, its total cost is
3, and by `c2_zero_heuristic_plan_is_optimal` that cost is realised by a
goal-reaching action sequence (and bounds every other one). -/
theorem c2_witness :
    search (craftGraph c2Recipes) (isGoalO [("g", 1)]) hzero [("g", 0)] 3 = .plan c2Plan ∧
    planCost c2Plan = 3 ∧
    (∃ s, Reaches (craftGraph c2Recipes) [("g", 0)] s 3 ∧
      isGoalO [("g", 1)] s = some true) := by
  have h := c2_zero_heuristic_plan_is_optimal (craftGraph c2Recipes)
    (isGoalO [("g", 1)]) [("g", 0)] 3 c2Plan
    (craftGraph_cost_nonneg c2Recipes (by decide)) rfl
  have hpc : planCost c2Plan = (3 : Cost) := by decide
  refine ⟨rfl, hpc, ?_⟩
  have h2 := h.2
  rw [hpc] at h2
  exact h2

/-! ## Claim C2, counterexample: a zero-cost recipe starves the goal -/

theorem wSt_inj {a b : Nat} (h : wSt a = wSt b) : a = b := by
  unfold wSt at h
  injection h with h1 h2
  injection h2 with h2 h3
  injection h2 with h2a h2b
  exact_mod_cast h2b

theorem wSt_ne_gSt (a b : Nat) : wSt a ≠ gSt b := by
  unfold wSt gSt
  intro h
  injection h with h1 h2
  injection h1 with h1a h1b
  cases h1b

theorem c0_graph (n : Nat) :
    craftGraph c0Recipes (wSt n) =
      some [("free wood", wSt (n + 1), 0), ("get gem", gSt n, 1)] := by
  have hgw : ¬ ("gem" : String) = "wood" := by decide
  have hwg : ¬ ("wood" : String) = "gem" := by decide
  show craftGraph c0Recipes [("gem", 0), ("wood", (n : Int))] = _
  simp [craftGraph, c0Recipes, check, effect, produceCell, consumeCell, alook, aset,
    wSt, gSt, hgw, hwg]

theorem c0_goal_false (n : Nat) : isGoalO [("gem", 1)] (wSt n) = some false := by
  unfold isGoalO wSt
  simp [alook]

theorem popMin_pick {l : List (Cost × CState)} {v : Cost × CState}
    (hv : v ∈ l) (hmin : ∀ x ∈ l, x = v ∨ v.1 < x.1) :
    ∃ rest, popMin l = some (v, rest) := by
  cases hp : popMin l with
  | none =>
    rw [popMin_eq_none.mp hp] at hv
    cases hv
  | some p =>
    obtain ⟨e, rest⟩ := p
    have hle : e.1 ≤ v.1 := popMin_min hp v hv
    rcases hmin e (popMin_mem hp) with rfl | hlt
    · exact ⟨rest, rfl⟩
    · exact absurd hlt (not_lt_of_le hle)

theorem c0_step (ss : SS) (hinv : C0Inv ss) :
    ∃ ss', searchStep (craftGraph c0Recipes) (isGoalO [("gem", 1)]) hzero ss = .next ss' ∧
      C0Inv ss' := by
  obtain ⟨nn, q1, hperm, hq1, hfresh, k, hsteps⟩ := hinv
  have hne1 : wSt nn ≠ wSt (nn + 1) := fun hh => by
    have := wSt_inj hh
    omega
  have hmem : ((0 : Cost), wSt nn) ∈ ss.queue :=
    hperm.symm.subset (List.mem_cons_self _ _)
  have hmin : ∀ x ∈ ss.queue, x = ((0 : Cost), wSt nn) ∨ ((0 : Cost), wSt nn).1 < x.1 := by
    intro x hx
    rcases List.mem_cons.mp (hperm.subset hx) with h | h
    · exact Or.inl h
    · right
      rw [hq1 x h]
      exact (by decide : (0 : Cost) < 1)
  obtain ⟨rest, hpop⟩ := popMin_pick hmem hmin
  have hrestq1 : rest.Perm q1 := by
    have h1 : (((0 : Cost), wSt nn) :: rest).Perm (((0 : Cost), wSt nn) :: q1) :=
      (popMin_perm hpop).symm.trans hperm
    exact h1.cons_inv
  have hrest1 : ∀ e ∈ rest, e.1 = 1 := fun e he => hq1 e (hrestq1.subset he)
  have hfresh1 : alook ss.costs (wSt (nn + 1)) = none := hfresh (nn + 1) (by omega)
  have hr1 : relax hzero (wSt nn) 0 { ss with queue := rest }
      ("free wood", wSt (nn + 1), (0 : Cost)) =
      some { queue := ((0 : Cost), wSt (nn + 1)) :: rest,
             costs := aset ss.costs (wSt (nn + 1)) 0,
             steps := aset ss.steps (wSt (nn + 1)) (k + 1),
             passed := aset ss.passed (wSt (nn + 1))
               (some (wSt nn, ("free wood", wSt (nn + 1), 0))) } := by
    simp [relax, hzero, hsteps, hfresh1]
  have hgemne : gSt nn ≠ wSt (nn + 1) := fun hh => wSt_ne_gSt (nn + 1) nn hh.symm
  have hsteps2 : alook (aset ss.steps (wSt (nn + 1)) (k + 1)) (wSt nn) = some k := by
    rw [alook_aset_ne _ _ _ _ hne1]
    exact hsteps
  have hcosts2 : alook (aset ss.costs (wSt (nn + 1)) 0) (gSt nn) =
      alook ss.costs (gSt nn) :=
    alook_aset_ne _ _ _ _ hgemne
  have hfresh' : ∀ m : Nat, nn + 1 < m →
      alook (aset ss.costs (wSt (nn + 1)) 0) (wSt m) = none := by
    intro m hm
    rw [alook_aset_ne _ _ _ _ (fun hh => by have := wSt_inj hh; omega)]
    exact hfresh m (by omega)
  have hstepsNew : alook (aset ss.steps (wSt (nn + 1)) (k + 1)) (wSt (nn + 1)) =
      some (k + 1) := alook_aset_self _ _ _
  by_cases hgem : (match alook ss.costs (gSt nn) with
                   | none => true
                   | some c => decide ((0 : Cost) + 1 < c)) = true
  · have hr2 : relax hzero (wSt nn) 0
        { queue := ((0 : Cost), wSt (nn + 1)) :: rest,
          costs := aset ss.costs (wSt (nn + 1)) 0,
          steps := aset ss.steps (wSt (nn + 1)) (k + 1),
          passed := aset ss.passed (wSt (nn + 1))
            (some (wSt nn, ("free wood", wSt (nn + 1), 0))) }
        ("get gem", gSt nn, (1 : Cost)) =
        some { queue := ((1 : Cost), gSt nn) :: ((0 : Cost), wSt (nn + 1)) :: rest,
               costs := aset (aset ss.costs (wSt (nn + 1)) 0) (gSt nn) 1,
               steps := aset (aset ss.steps (wSt (nn + 1)) (k + 1)) (gSt nn) (k + 1),
               passed := aset (aset ss.passed (wSt (nn + 1))
                 (some (wSt nn, ("free wood", wSt (nn + 1), 0)))) (gSt nn)
                 (some (wSt nn, ("get gem", gSt nn, 1))) } := by
      simp only [relax, hsteps2, hcosts2]
      rw [if_pos hgem]
      simp [hzero]
    have hstepEq : searchStep (craftGraph c0Recipes) (isGoalO [("gem", 1)]) hzero ss =
        .next { queue := ((1 : Cost), gSt nn) :: ((0 : Cost), wSt (nn + 1)) :: rest,
                costs := aset (aset ss.costs (wSt (nn + 1)) 0) (gSt nn) 1,
                steps := aset (aset ss.steps (wSt (nn + 1)) (k + 1)) (gSt nn) (k + 1),
                passed := aset (aset ss.passed (wSt (nn + 1))
                  (some (wSt nn, ("free wood", wSt (nn + 1), 0)))) (gSt nn)
                  (some (wSt nn, ("get gem", gSt nn, 1))) } := by
      unfold searchStep
      simp only [hpop, c0_goal_false nn, c0_graph nn, expand, hr1, hr2]
    refine ⟨_, hstepEq, ?_⟩
    unfold C0Inv
    refine ⟨nn + 1, ((1 : Cost), gSt nn) :: rest, ?_, ?_, ?_, ⟨k + 1, ?_⟩⟩
    · exact List.Perm.swap _ _ _
    · intro e he
      rcases List.mem_cons.mp he with rfl | he'
      · rfl
      · exact hrest1 e he'
    · intro m hm
      rw [alook_aset_ne _ _ _ _ (wSt_ne_gSt m nn)]
      exact hfresh' m hm
    · rw [alook_aset_ne _ _ _ _ (wSt_ne_gSt (nn + 1) nn)]
      exact hstepsNew
  · have hr2 : relax hzero (wSt nn) 0
        { queue := ((0 : Cost), wSt (nn + 1)) :: rest,
          costs := aset ss.costs (wSt (nn + 1)) 0,
          steps := aset ss.steps (wSt (nn + 1)) (k + 1),
          passed := aset ss.passed (wSt (nn + 1))
            (some (wSt nn, ("free wood", wSt (nn + 1), 0))) }
        ("get gem", gSt nn, (1 : Cost)) =
        some { queue := ((0 : Cost), wSt (nn + 1)) :: rest,
               costs := aset ss.costs (wSt (nn + 1)) 0,
               steps := aset ss.steps (wSt (nn + 1)) (k + 1),
               passed := aset ss.passed (wSt (nn + 1))
                 (some (wSt nn, ("free wood", wSt (nn + 1), 0))) } := by
      simp only [relax, hsteps2, hcosts2]
      rw [if_neg hgem]
    have hstepEq : searchStep (craftGraph c0Recipes) (isGoalO [("gem", 1)]) hzero ss =
        .next { queue := ((0 : Cost), wSt (nn + 1)) :: rest,
                costs := aset ss.costs (wSt (nn + 1)) 0,
                steps := aset ss.steps (wSt (nn + 1)) (k + 1),
                passed := aset ss.passed (wSt (nn + 1))
                  (some (wSt nn, ("free wood", wSt (nn + 1), 0))) } := by
      unfold searchStep
      simp only [hpop, c0_goal_false nn, c0_graph nn, expand, hr1, hr2]
    refine ⟨_, hstepEq, ?_⟩
    unfold C0Inv
    exact ⟨nn + 1, rest, List.Perm.refl _, hrest1, hfresh', ⟨k + 1, hstepsNew⟩⟩

theorem c0_no_plan :
    ∀ (fuel : Nat) (ss : SS), C0Inv ss →
      ∀ p, searchRun (craftGraph c0Recipes) (isGoalO [("gem", 1)]) hzero fuel ss ≠
        .plan p := by
  intro fuel
  induction fuel with
  | zero =>
    intro ss _ p h
    cases h
  | succ n ih =>
    intro ss hinv p h
    obtain ⟨ss', hstep, hinv'⟩ := c0_step ss hinv
    unfold searchRun at h
    rw [hstep] at h
    exact ih ss' hinv' p h

theorem c0_init : C0Inv (initSS (wSt 0)) := by
  refine ⟨0, [], List.Perm.refl _, ?_, ?_, ⟨0, ?_⟩⟩
  · intro e he
    cases he
  · intro m hm
    show alook [(wSt 0, (0 : Cost))] (wSt m) = none
    rw [alook_cons, if_neg (fun hh => by have := wSt_inj hh; omega)]
    rfl
  · show alook [(wSt 0, (0 : Nat))] (wSt 0) = some 0
    simp [alook]

/-- C2, counterexample.  On a domain with a zero-cost recipe, a goal-
satisfying state is reachable at finite cost, yet for every time budget the
search returns no plan at all: the zero-priority wood states starve the
cost-1 goal entry forever, so the engine never returns a minimum-cost plan
even with an unbounded budget. -/
theorem c2_counterexample :
    (Reaches (craftGraph c0Recipes) (wSt 0) (gSt 0) (0 + 1) ∧
      isGoalO [("gem", 1)] (gSt 0) = some true) ∧
    ¬ ∃ fuel p, search (craftGraph c0Recipes) (isGoalO [("gem", 1)]) hzero
        (wSt 0) fuel = .plan p := by
  constructor
  · constructor
    · refine Reaches.step (wSt 0) 0 _ "get gem" (gSt 0) 1 Reaches.refl (c0_graph 0) ?_
      simp
    · decide
  · rintro ⟨fuel, p, hp⟩
    exact c0_no_plan fuel (initSS (wSt 0)) c0_init p hp
